import Mathlib

/-!
Shallow embedding of the SkylinePathfinder repository (Python) in Lean 4.

Sources embedded:
  - model/euclidean_node.py : `EuclideanNode` (value node with type/name/floor/coord).
  - model/functions.py      : `euclidean_dist`, `euclidean_dist_nodes`, `naive_knn`, `project`.
  - model/euclidean_graph.py: the per-classroom repair step of `connect_all`.
  - tsp/solve_tsp.py        : `ReducedGraph` (`add_reduced_edge`, `expand_path`,
                              `neighbors`), `tsp_solver`, `_reduce_graph`,
                              `_brute_force`, `_greedy`, `_path_len`.

Modelling conventions, stated once here and referenced from the definitions:
  - Python numbers (floats) are modelled as rationals `ℚ`; coordinates are `List ℚ`.
  - Python's square root is not computable over `ℚ`; wherever the code computes a
    Euclidean distance `(Σ (dᵢ)²) ** 0.5` we keep the radicand (the sum of squared
    differences) and apply `Real.sqrt` in theorem statements.  `Real.sqrt` is
    strictly monotone on nonnegative arguments, so every comparison and argmin the
    code performs on distances coincides with the one performed on the radicands.
  - Exceptions (`ValueError`, `KeyError`, `IndexError`, `NotImplementedError`) are
    modelled with `Except String` or `Option`; the message strings follow the source.
  - Python dict iteration order is insertion order; we keep explicit `List`s.
    Set iteration order (used by `_greedy`'s `min` over a set difference) is
    implementation defined in Python; we model it by node-insertion order.  The
    first element attaining the minimum is selected, as Python's `min` does.
-/

namespace Skyline

/-- `EuclideanNode` from model/euclidean_node.py: a value node with a node type
(`"Hallway"`/`"Classroom"`), a name, a floor and a coordinate tuple. -/
structure EuclideanNode where
  type : String
  name : String
  floor : Int
  coord : List ℚ
deriving DecidableEq, Repr

/-- The radicand of `euclidean_dist` from model/functions.py: the sum of squared
coordinate differences `Σ (d1 - d2)²` over `zip p q` (the code then takes `** 0.5`;
see the file header for why the square root is applied only in theorem statements). -/
def sumSqDiff : List ℚ → List ℚ → ℚ
  | a :: p, b :: q => (a - b) * (a - b) + sumSqDiff p q
  | _, _ => 0

/-- `euclidean_dist` from model/functions.py, up to the final `** 0.5`:
checks that the two points have the same number of dimensions (raising a
`ValueError` otherwise) and returns the sum of squared coordinate differences;
the distance the code returns is `Real.sqrt` of this value. -/
def euclidean_dist_sq (p q : List ℚ) : Except String ℚ :=
  if p.length ≠ q.length then
    .error "Points must have the same number of dimensions."
  else
    .ok (sumSqDiff p q)

/-- `euclidean_dist_nodes` from model/functions.py applied to two nodes'
coordinates, kept at the radicand level (the code's value is the square root
of this).  The call sites in the repository always pass nodes of equal
dimensionality, where `euclidean_dist` reduces to `sumSqDiff`. -/
def sqDistN (n m : EuclideanNode) : ℚ :=
  sumSqDiff n.coord m.coord

/-- `_path_len` from tsp/solve_tsp.py: the sum of the `weight` attributes of the
consecutive edges of a path.  A missing edge raises `KeyError` in Python
(`graph[u][v]`), modelled by `none`; every edge in this repository is created
with a `weight` attribute, so the `.get('weight', 1)` default never fires. -/
def pathLen (wt : EuclideanNode → EuclideanNode → Option ℚ) : List EuclideanNode → Option ℚ
  | [] => some 0
  | [_] => some 0
  | u :: v :: rest => do
    let w ← wt u v
    let r ← pathLen wt (v :: rest)
    return w + r

/-- `ReducedGraph` from tsp/solve_tsp.py: an undirected weighted graph over the
required nodes together with `edge_dict`, the map from each directed node pair to
the full base-graph path it abbreviates.  `nodes` lists the graph's nodes in
insertion order (networkx iteration order), `wt` is the adjacency weight lookup
`graph[u][v]['weight']` and `paths` is `edge_dict`. -/
structure ReducedGraph where
  start : EuclideanNode
  nodes : List EuclideanNode
  wt : EuclideanNode → EuclideanNode → Option ℚ
  paths : EuclideanNode → EuclideanNode → Option (List EuclideanNode)

/-- `ReducedGraph.add_reduced_edge` from tsp/solve_tsp.py: adds the undirected
edge `u–v` with the given weight (networkx `add_edge`, inserting unseen endpoints
in order) and stores `edge_dict[(u, v)] = path`, `edge_dict[(v, u)] = path[::-1]`. -/
def addReducedEdge (g : ReducedGraph) (u v : EuclideanNode) (path : List EuclideanNode)
    (w : ℚ) : ReducedGraph :=
  let ns1 := if u ∈ g.nodes then g.nodes else g.nodes ++ [u]
  let ns2 := if v ∈ ns1 then ns1 else ns1 ++ [v]
  { start := g.start
    nodes := ns2
    wt := fun a b =>
      if (a = u ∧ b = v) ∨ (a = v ∧ b = u) then some w else g.wt a b
    paths := fun a b =>
      if a = u ∧ b = v then some path
      else if a = v ∧ b = u then some path.reverse
      else g.paths a b }

/-- `ReducedGraph.neighbors` from tsp/solve_tsp.py: the adjacency keys of `n`
(`self[n].keys()`), listed in node-insertion order (the set the code builds has
implementation-defined iteration order; see the file header). -/
def neighborsList (g : ReducedGraph) (n : EuclideanNode) : List EuclideanNode :=
  g.nodes.filter (fun m => (g.wt n m).isSome)

/-- Python's `min(iterable, key=f)`: the first element of the list attaining the
minimal key, `none` on an empty list. -/
def minKey {α : Type} (f : α → ℚ) : List α → Option α
  | [] => none
  | x :: xs =>
    match minKey f xs with
    | none => some x
    | some y => if f x ≤ f y then some x else some y

theorem minKey_mem {α : Type} {f : α → ℚ} {l : List α} {x : α}
    (h : minKey f l = some x) : x ∈ l := by
  induction l with
  | nil => simp [minKey] at h
  | cons a l ih =>
    simp only [minKey] at h
    cases hm : minKey f l with
    | none => rw [hm] at h; simp_all
    | some y =>
      rw [hm] at h
      by_cases hle : f a ≤ f y
      · simp [hle] at h; simp [h]
      · simp [hle] at h
        exact List.mem_cons_of_mem a (ih (by rw [hm, h]))

theorem minKey_eq_none_iff {α : Type} {f : α → ℚ} {l : List α} :
    minKey f l = none ↔ l = [] := by
  cases l with
  | nil => simp [minKey]
  | cons a t =>
    simp only [minKey]
    cases hm : minKey f t with
    | none => simp
    | some y => by_cases hle : f a ≤ f y <;> simp [hle]

theorem minKey_le {α : Type} {f : α → ℚ} {l : List α} {x : α}
    (h : minKey f l = some x) : ∀ y ∈ l, f x ≤ f y := by
  induction l generalizing x with
  | nil => simp [minKey] at h
  | cons a l ih =>
    simp only [minKey] at h
    cases hm : minKey f l with
    | none =>
      rw [hm] at h
      simp only [Option.some.injEq] at h
      subst h
      have hl : l = [] := minKey_eq_none_iff.mp hm
      subst hl
      intro y hy
      simp only [List.mem_singleton] at hy
      subst hy
      exact le_refl _
    | some y =>
      rw [hm] at h
      by_cases hle : f a ≤ f y
      · simp only [hle, if_pos] at h
        simp only [Option.some.injEq] at h
        subst h
        intro z hz
        rcases List.mem_cons.mp hz with h1 | h2
        · exact le_of_eq (by rw [h1])
        · exact le_trans hle (ih hm z h2)
      · simp only [hle, if_neg, not_false_iff] at h
        simp only [Option.some.injEq] at h
        subst h
        intro z hz
        rcases List.mem_cons.mp hz with h1 | h2
        · rw [h1]; exact le_of_not_le hle
        · exact ih hm z h2

theorem length_filter_le_of_imp {α : Type} (l : List α) (p q : α → Bool)
    (h : ∀ x ∈ l, p x = true → q x = true) :
    (l.filter p).length ≤ (l.filter q).length := by
  induction l with
  | nil => simp
  | cons a l ih =>
    have ih' := ih (fun x hx hp => h x (List.mem_cons_of_mem a hx) hp)
    by_cases hp : p a = true
    · have hq : q a = true := h a (List.mem_cons_self a l) hp
      simp [List.filter_cons, hp, hq]
      omega
    · simp only [List.filter_cons, hp]
      by_cases hq : q a = true
      · simp only [hq, if_true, List.length_cons, Bool.false_eq_true, if_false]
        omega
      · simp only [hq, Bool.false_eq_true, if_false]
        exact ih'

theorem length_filter_not_mem_lt {l v : List EuclideanNode} {b : EuclideanNode}
    (hb : b ∈ l) (hnb : b ∉ v) :
    (l.filter (fun m => decide (m ∉ v ++ [b]))).length <
      (l.filter (fun m => decide (m ∉ v))).length := by
  induction l with
  | nil => simp at hb
  | cons a l ih =>
    by_cases hab : a = b
    · subst hab
      have h1 : (decide (a ∉ v ++ [a])) = false := by simp
      have h2 : (decide (a ∉ v)) = true := by simp [hnb]
      simp only [List.filter_cons, h1, h2, Bool.false_eq_true, if_false, if_true,
        List.length_cons]
      have := length_filter_le_of_imp l (fun m => decide (m ∉ v ++ [a]))
        (fun m => decide (m ∉ v)) (by
          intro x _ hx
          simp only [decide_eq_true_eq] at hx ⊢
          intro hmem
          exact hx (List.mem_append_left _ hmem))
      omega
    · have hbl : b ∈ l := by
        rcases List.mem_cons.mp hb with h1 | h2
        · exact absurd h1.symm hab
        · exact h2
      have hsame : (decide (a ∉ v ++ [b])) = (decide (a ∉ v)) := by
        by_cases hav : a ∈ v
        · simp [hav, List.mem_append_left]
        · have : a ∉ v ++ [b] := by
            intro hmem
            rcases List.mem_append.mp hmem with h1 | h2
            · exact hav h1
            · exact hab (List.mem_singleton.mp h2)
          simp [this, hav]
      simp only [List.filter_cons, hsame]
      by_cases hv : (decide (a ∉ v)) = true
      · simp only [hv, if_true, List.length_cons]
        exact Nat.succ_lt_succ (ih hbl)
      · simp only [Bool.not_eq_true] at hv
        simp only [hv, Bool.false_eq_true, if_false]
        exact ih hbl

/-- The loop body of `_greedy` from tsp/solve_tsp.py, written as a recursion that
returns the nodes appended after `cur`.  At each step the candidates are the
not-yet-visited neighbors of the current node, and Python's
`min(candidates, key=...)` — the first candidate attaining the minimal key —
selects the next node.  The selection key is abstracted as `key` so that the
code's key (`euclidean_dist_nodes`, see `greedyPath`) and the key asserted by the
specification (the reduced-graph edge weight, see `greedyPathByWeightSpec`) can be
compared.  The loop terminates because each iteration visits a new graph node. -/
def greedyGo (g : ReducedGraph) (key : EuclideanNode → EuclideanNode → ℚ)
    (cur : EuclideanNode) (visited : List EuclideanNode) : List EuclideanNode :=
  match hsel : minKey (key cur) ((neighborsList g cur).filter (fun m => decide (m ∉ visited))) with
  | none => []
  | some nearest => nearest :: greedyGo g key nearest (visited ++ [nearest])
termination_by (g.nodes.filter (fun m => decide (m ∉ visited))).length
decreasing_by
  have hmem := minKey_mem hsel
  have h1 : nearest ∈ neighborsList g cur := (List.mem_filter.mp hmem).1
  have h2 : nearest ∉ visited := by
    have := (List.mem_filter.mp hmem).2
    simpa using this
  have h3 : nearest ∈ g.nodes := (List.mem_filter.mp h1).1
  exact length_filter_not_mem_lt h3 h2

theorem greedyGo_unfold (g : ReducedGraph) (key : EuclideanNode → EuclideanNode → ℚ)
    (cur : EuclideanNode) (visited : List EuclideanNode) :
    greedyGo g key cur visited =
      match minKey (key cur) ((neighborsList g cur).filter (fun m => decide (m ∉ visited))) with
      | none => []
      | some nearest => nearest :: greedyGo g key nearest (visited ++ [nearest]) := by
  cases hm : minKey (key cur) ((neighborsList g cur).filter (fun m => decide (m ∉ visited))) with
  | none => rw [greedyGo.eq_def, hm]
  | some nearest => rw [greedyGo.eq_def, hm]

/-- `_greedy` from tsp/solve_tsp.py, path component: starts at `graph.start` with
`visited = {graph.start}` and repeatedly appends the unvisited neighbor nearest to
the current node under `euclidean_dist_nodes` (the straight-line Euclidean
distance between the two nodes' coordinates — modelled by its radicand `sqDistN`,
which induces the identical selection since the square root is strictly
monotone). -/
def greedyPath (g : ReducedGraph) : List EuclideanNode :=
  g.start :: greedyGo g sqDistN g.start [g.start]

/-- `_greedy` from tsp/solve_tsp.py: the greedy path together with
`_path_len(graph, greedy_path)`. -/
def greedy (g : ReducedGraph) : List EuclideanNode × Option ℚ :=
  (greedyPath g, pathLen g.wt (greedyPath g))

/-- Modelled from the spec's words, NOT from the source (for comparison with
`greedyPath`): the claim "repeatedly appends the nearest not-yet-visited required
node as measured by the reduced-graph edge weight between the current node and
the candidate" — the same loop as `_greedy`, but selecting by the reduced-graph
edge weight `graph[cur][neighbor]['weight']` instead of `euclidean_dist_nodes`.
(The `getD 0` default is never consulted: every candidate is a neighbor of the
current node, so the weight lookup succeeds.) -/
def greedyPathByWeightSpec (g : ReducedGraph) : List EuclideanNode :=
  g.start :: greedyGo g (fun c m => (g.wt c m).getD 0) g.start [g.start]

/-- `_brute_force` from tsp/solve_tsp.py: enumerates every permutation of the
nodes other than `graph.start` (`node is not graph.start`; the pipeline interns
nodes, so identity agrees with equality), prefixes each with `start`, computes
`_path_len` of the resulting path (a `KeyError` on a missing edge, modelled by
`none`, aborts the whole call) and keeps the first permutation attaining the
minimal length (the code updates only on a strict `<`). -/
def bruteForce (g : ReducedGraph) : Option (List EuclideanNode × ℚ) := do
  let others := g.nodes.filter (fun n => n ≠ g.start)
  let cands := others.permutations.map (fun p => g.start :: p)
  let scored ← cands.mapM (fun p => (pathLen g.wt p).map (fun l => (p, l)))
  minKey (fun x => x.2) scored

/-- `ReducedGraph.expand_path` from tsp/solve_tsp.py, with the loop over
`zip(reduced_path[:-2], reduced_path[1:-1])` followed by the final
`edge_dict[(reduced_path[-2], reduced_path[-1])]` segment written as a recursion
over the route: every intermediate segment contributes `edge_dict[(u, v)][:-1]`
and the final segment is appended whole.  A route of fewer than two nodes makes
the Python code evaluate `reduced_path[-2]` out of range (`IndexError`); a pair
of consecutive nodes absent from `edge_dict` raises `KeyError`. -/
def expandPath (ed : EuclideanNode → EuclideanNode → Option (List EuclideanNode)) :
    List EuclideanNode → Except String (List EuclideanNode)
  | u :: v :: w :: rest => do
    let seg ←
      match ed u v with
      | some p => .ok p
      | none => .error "KeyError"
    let tailPart ← expandPath ed (v :: w :: rest)
    .ok (seg.dropLast ++ tailPart)
  | [u, v] =>
    match ed u v with
    | some p => .ok p
    | none => .error "KeyError"
  | _ => .error "IndexError: reduced_path[-2] out of range"

/-- Python's `str.lower()` as used by `tsp_solver`: lowercase every character
(equivalent to `String.toLower`, written over the character list so that it
evaluates by kernel reduction). -/
def strLower (s : String) : String := String.mk (s.data.map Char.toLower)

/-- `tsp_solver` from tsp/solve_tsp.py, from the point where the reduced graph is
in hand (the spec's `solve(reducedGraph, algorithm)` interface): dispatches on
`algorithm.lower()`, raising `NotImplementedError` with a message enumerating the
implemented algorithms when the name is recognized as neither `"greedy"` nor
`"brute force"`, and otherwise expands the chosen route over `edge_dict` and
returns it with its length. -/
def tsp_solver (g : ReducedGraph) (algorithm : String) :
    Except String (List EuclideanNode × ℚ) := do
  let chosen ←
    if strLower algorithm = "greedy" then
      match greedy g with
      | (p, some l) => .ok (p, l)
      | (_, none) => .error "KeyError"
    else if strLower algorithm = "brute force" then
      match bruteForce g with
      | some r => .ok r
      | none => .error "KeyError"
    else
      .error ("\"" ++ algorithm ++ "\" is not recognized as an implemented algorithm. " ++
        "Implemented algorithms: \n\t- greedy\n\t- brute force")
  let full ← expandPath g.paths chosen.1
  .ok (full, chosen.2)

/-- The base graph as `_reduce_graph` from tsp/solve_tsp.py consumes it: the
`node_dict` name-to-node index built by `EuclideanGraph.from_csv` (a missing name
raises `KeyError`, modelled by `none`) and the weighted adjacency
`graph[u][v]['weight']`. -/
structure BaseGraph where
  node_dict : String → Option EuclideanNode
  wt : EuclideanNode → EuclideanNode → Option ℚ

/-- `itertools.combinations(l, 2)`: all pairs `(l[i], l[j])` with `i < j`, in
order. -/
def combos2 {α : Type} : List α → List (α × α)
  | [] => []
  | x :: xs => xs.map (fun y => (x, y)) ++ combos2 xs

/-- One iteration of the loop of `_reduce_graph` from tsp/solve_tsp.py: resolve
the two names through `node_dict`, run the shortest-path search `sp` (the call
`nx.astar_path(graph, source, target, heuristic=euclidean_dist_nodes)` into the
networkx library, abstracted as a parameter; the theorems hypothesise that it
returns shortest paths, which the spec guarantees via the admissible heuristic),
measure the path with `_path_len` and add the reduced edge. -/
def reduceStep (g : BaseGraph) (sp : EuclideanNode → EuclideanNode → List EuclideanNode)
    (rg : ReducedGraph) (uv : String × String) : Option ReducedGraph := do
  let source ← g.node_dict uv.1
  let target ← g.node_dict uv.2
  let path := sp source target
  let d ← pathLen g.wt path
  some (addReducedEdge rg source target path d)

/-- `_reduce_graph` from tsp/solve_tsp.py: builds
`ReducedGraph(graph.node_dict[start])` and adds one reduced edge per pair of
`itertools.combinations(nodes, 2)`, where `nodes` is the list of critical node
names. -/
def reduceGraph (g : BaseGraph) (sp : EuclideanNode → EuclideanNode → List EuclideanNode)
    (names : List String) (startName : String) : Option ReducedGraph := do
  let s ← g.node_dict startName
  (combos2 names).foldlM (reduceStep g sp)
    { start := s, nodes := [], wt := fun _ _ => none, paths := fun _ _ => none }

/-- `naive_knn` from model/functions.py at its only call site
(`connect_all`, with the default parameters `weight_func=euclidean_dist`,
`ignore_self=True`, `same_floor=True`): restrict the candidates to the source
node's floor, drop candidates at distance zero, raise a `ValueError` when fewer
than `k` candidates remain, and return the first `k` candidates sorted by
distance to the source (`sorted` is stable; distances are compared through the
radicand `sumSqDiff`, an identical comparison since the square root is strictly
monotone). -/
def naive_knn (node : EuclideanNode) (data : List EuclideanNode) (k : ℕ) :
    Except String (List EuclideanNode) :=
  let d1 := data.filter (fun item => item.floor = node.floor)
  let d2 := d1.filter (fun item => sumSqDiff node.coord item.coord ≠ 0)
  if k > d2.length then
    .error ("Data only contains " ++ toString d2.length ++ " total neighbors after filtering")
  else
    .ok ((d2.mergeSort (fun x y =>
      decide (sumSqDiff x.coord node.coord ≤ sumSqDiff y.coord node.coord))).take k)

/-- `project` from model/functions.py: checks that all three nodes are
two-dimensional (`ValueError` otherwise) and returns the Hallway node
`'T-' + node.name`, on `node`'s floor, at the point of segment `p–q` nearest to
`node` (shapely's `line.interpolate(line.project(point))`, i.e. the orthogonal
projection clamped to the segment; on a degenerate segment `p = q` shapely
returns `p`, as does the formula below since division by zero yields zero
in `ℚ`). -/
def project (p q node : EuclideanNode) : Except String EuclideanNode :=
  if p.coord.length = 2 ∧ q.coord.length = 2 ∧ node.coord.length = 2 then
    let ax := p.coord.getD 0 0
    let ay := p.coord.getD 1 0
    let bx := q.coord.getD 0 0
    let by' := q.coord.getD 1 0
    let cx := node.coord.getD 0 0
    let cy := node.coord.getD 1 0
    let dx := bx - ax
    let dy := by' - ay
    let t := ((cx - ax) * dx + (cy - ay) * dy) / (dx * dx + dy * dy)
    let tc := max 0 (min 1 t)
    .ok { type := "Hallway", name := "T-" ++ node.name, floor := node.floor,
          coord := [ax + tc * dx, ay + tc * dy] }
  else
    .error "All nodes must be two-dimensional."

/-- One iteration of the loop of `EuclideanGraph.connect_all` from
model/euclidean_graph.py, for a single classroom node: find the two nearest
hallway nodes `a, b` with `naive_knn`, project the classroom onto segment `a–b`
obtaining the junction `d`, and add the three edges `a–d`, `b–d`, `classroom–d`,
each weighted by `euclidean_dist_nodes` of its endpoints (recorded here by the
radicand `sqDistN`; the weight the code stores is its square root).  The
destructuring `a, b = ...` cannot fail after a successful `naive_knn` with
`k = 2`. -/
def repairTarget (allNodes : List EuclideanNode) (classroom : EuclideanNode) :
    Except String (List (EuclideanNode × EuclideanNode × ℚ)) := do
  let hallways := allNodes.filter (fun n => n.type = "Hallway")
  let nn ← naive_knn classroom hallways 2
  match nn with
  | [a, b] => do
    let d ← project a b classroom
    .ok [(a, d, sqDistN a d), (b, d, sqDistN b d), (classroom, d, sqDistN classroom d)]
  | _ => .error "ValueError: not enough values to unpack"

/-- CPython's hash of an `int`: reduction modulo the Mersenne prime `2^61 - 1`
preserving sign, with the result `-1` replaced by `-2` (`-1` is CPython's error
sentinel, so `hash(-1) == hash(-2) == -2`). -/
def pyIntHash (n : Int) : Int :=
  let M : Int := 2 ^ 61 - 1
  let h := if 0 ≤ n then n % M else -((-n) % M)
  if h = -1 then -2 else h

/-- `EuclideanNode.__hash__` from model/euclidean_node.py:
`hash((self.type, self.name, self.floor, self.coord))`.  CPython's tuple hash is
a deterministic combination of the element hashes; string hashes are randomized
per process and float-tuple hashes follow their own formula, so the tuple
combinator `tupleHash`, the string hash `strHash` and the coordinate-tuple hash
`coordHash` are abstracted as parameters — the theorems quantify over all of
them, covering every hash seed. -/
def pyNodeHash (strHash : String → Int) (tupleHash : List Int → Int)
    (coordHash : List ℚ → Int) (n : EuclideanNode) : Int :=
  tupleHash [strHash n.type, strHash n.name, pyIntHash n.floor, coordHash n.coord]

/-- `EuclideanNode.__eq__` from model/euclidean_node.py:
`type(self) == type(other) and hash(self) == hash(other)` — both operands here
are `EuclideanNode`s, so the class test holds and equality is hash equality. -/
def pyNodeEq (strHash : String → Int) (tupleHash : List Int → Int)
    (coordHash : List ℚ → Int) (a b : EuclideanNode) : Bool :=
  pyNodeHash strHash tupleHash coordHash a = pyNodeHash strHash tupleHash coordHash b

/-! ### Basic properties of `sumSqDiff` -/

theorem sumSqDiff_nonneg : ∀ p q : List ℚ, 0 ≤ sumSqDiff p q := by
  intro p
  induction p with
  | nil => intro q; cases q <;> simp [sumSqDiff]
  | cons a p ih =>
    intro q
    cases q with
    | nil => simp [sumSqDiff]
    | cons b q =>
      simp only [sumSqDiff]
      have h1 : 0 ≤ (a - b) * (a - b) := mul_self_nonneg _
      have h2 := ih q
      linarith

theorem sumSqDiff_comm : ∀ p q : List ℚ, sumSqDiff p q = sumSqDiff q p := by
  intro p
  induction p with
  | nil => intro q; cases q <;> simp [sumSqDiff]
  | cons a p ih =>
    intro q
    cases q with
    | nil => simp [sumSqDiff]
    | cons b q =>
      simp only [sumSqDiff, ih q]
      ring_nf

theorem sumSqDiff_eq_zero_iff : ∀ p q : List ℚ, p.length = q.length →
    (sumSqDiff p q = 0 ↔ p = q) := by
  intro p
  induction p with
  | nil =>
    intro q hq
    cases q with
    | nil => simp [sumSqDiff]
    | cons b q => simp at hq
  | cons a p ih =>
    intro q hq
    cases q with
    | nil => simp at hq
    | cons b q =>
      simp only [List.length_cons, Nat.succ.injEq] at hq
      simp only [sumSqDiff]
      constructor
      · intro h
        have h1 : 0 ≤ (a - b) * (a - b) := mul_self_nonneg _
        have h2 := sumSqDiff_nonneg p q
        have hab : (a - b) * (a - b) = 0 := by linarith
        have hrest : sumSqDiff p q = 0 := by linarith
        have hab' : a = b := by
          have := mul_self_eq_zero.mp hab
          linarith
        have hpq : p = q := (ih q hq).mp hrest
        rw [hab', hpq]
      · intro h
        injection h with h1 h2
        subst h1
        subst h2
        simp only [sub_self, mul_zero, zero_add]
        exact (ih p rfl).mpr rfl

/-- The `i`-th coordinate of a point, as a real number (`0` out of range). -/
def getR (p : List ℚ) (i : ℕ) : ℝ := ((p.getD i 0 : ℚ) : ℝ)

theorem sumSqDiff_cast : ∀ (p : List ℚ) (n : ℕ) (q : List ℚ), p.length = n → q.length = n →
    ((sumSqDiff p q : ℚ) : ℝ) = ∑ i : Fin n, (getR p i.val - getR q i.val) ^ 2 := by
  intro p
  induction p with
  | nil =>
    intro n q hp hq
    subst hp
    have : q = [] := List.length_eq_zero.mp hq
    subst this
    simp [sumSqDiff]
  | cons a p ih =>
    intro n q hp hq
    cases q with
    | nil => rw [← hp] at hq; simp at hq
    | cons b q =>
      subst hp
      simp only [List.length_cons, Nat.succ.injEq] at hq
      simp only [sumSqDiff, List.length_cons]
      push_cast
      rw [Fin.sum_univ_succ]
      simp only [getR, Fin.val_zero, Fin.val_succ, List.getD_cons_zero, List.getD_cons_succ]
      have h := ih p.length q rfl hq
      simp only [getR] at h
      rw [h]
      ring

theorem sqrt_sum_sq_triangle (n : ℕ) (x y z : EuclideanSpace ℝ (Fin n)) :
    Real.sqrt (∑ i, (x i - z i) ^ 2) ≤
      Real.sqrt (∑ i, (x i - y i) ^ 2) + Real.sqrt (∑ i, (y i - z i) ^ 2) := by
  have key : ∀ u v : EuclideanSpace ℝ (Fin n), dist u v = Real.sqrt (∑ i, (u i - v i) ^ 2) := by
    intro u v
    rw [EuclideanSpace.dist_eq]
    congr 1
    apply Finset.sum_congr rfl
    intro i _
    rw [Real.dist_eq, sq_abs]
  rw [← key x z, ← key x y, ← key y z]
  exact dist_triangle x y z

/-- C9: for points of equal dimensionality the Euclidean distance (the square
root of the value `euclidean_dist` computes before its `** 0.5`) is symmetric,
nonnegative, zero exactly on equal points, and satisfies the triangle
inequality; on points of differing dimensionality `euclidean_dist` raises the
dimension-mismatch `ValueError`. -/
theorem euclidean_dist_metric_properties (p q r : List ℚ)
    (hpq : p.length = q.length) (hqr : q.length = r.length) :
    euclidean_dist_sq p q = .ok (sumSqDiff p q) ∧
    Real.sqrt ((sumSqDiff p q : ℚ) : ℝ) = Real.sqrt ((sumSqDiff q p : ℚ) : ℝ) ∧
    0 ≤ Real.sqrt ((sumSqDiff p q : ℚ) : ℝ) ∧
    (Real.sqrt ((sumSqDiff p q : ℚ) : ℝ) = 0 ↔ p = q) ∧
    Real.sqrt ((sumSqDiff p r : ℚ) : ℝ) ≤
      Real.sqrt ((sumSqDiff p q : ℚ) : ℝ) + Real.sqrt ((sumSqDiff q r : ℚ) : ℝ) ∧
    (∀ p' q' : List ℚ, p'.length ≠ q'.length →
      euclidean_dist_sq p' q' = .error "Points must have the same number of dimensions.") := by
  refine ⟨?_, ?_, ?_, ?_, ?_, ?_⟩
  · simp [euclidean_dist_sq, hpq]
  · rw [sumSqDiff_comm]
  · exact Real.sqrt_nonneg _
  · have hnn : (0 : ℝ) ≤ ((sumSqDiff p q : ℚ) : ℝ) := by
      exact_mod_cast sumSqDiff_nonneg p q
    rw [Real.sqrt_eq_zero hnn]
    rw [show (((sumSqDiff p q : ℚ) : ℝ) = 0 ↔ sumSqDiff p q = 0) from by exact_mod_cast Iff.rfl]
    exact sumSqDiff_eq_zero_iff p q hpq
  · rw [sumSqDiff_cast p p.length r rfl (by omega), sumSqDiff_cast p p.length q rfl hpq.symm,
      sumSqDiff_cast q p.length r hpq.symm (by omega)]
    exact sqrt_sum_sq_triangle p.length (fun i => getR p i.val) (fun i => getR q i.val)
      (fun i => getR r i.val)
  · intro p' q' hne
    simp [euclidean_dist_sq, hne]

/-- Witness for C9 at `p = [0, 0]`, `q = [3, 4]`, `r = [1, 1]`. -/
theorem euclidean_dist_metric_properties_witness :
    ([(0 : ℚ), 0].length = [(3 : ℚ), 4].length) ∧
    (Real.sqrt ((sumSqDiff [(0 : ℚ), 0] [3, 4] : ℚ) : ℝ) =
      Real.sqrt ((sumSqDiff [(3 : ℚ), 4] [0, 0] : ℚ) : ℝ)) :=
  ⟨rfl, (euclidean_dist_metric_properties [0, 0] [3, 4] [1, 1] rfl rfl).2.1⟩

/-! ### C3: node equality is hash equality, and CPython int hashes collide -/

/-- A node on floor `-1`. -/
def hashCollideA : EuclideanNode := ⟨"Hallway", "X", -1, [0, 0]⟩

/-- The same node except on floor `-2`; CPython hashes `-1` and `-2` alike. -/
def hashCollideB : EuclideanNode := ⟨"Hallway", "X", -2, [0, 0]⟩

/-- C3 (the code deviates from its own documented intent): `EuclideanNode.__eq__`
compares hashes, and CPython's `hash(-1) == hash(-2) == -2`, so the two nodes
above — which differ in their `floor` field — compare equal under the code's
`__eq__` for every string-hash seed and every tuple-hash combinator, violating
"two nodes that differ in some field are never equal" (and the code's own
comment "Two nodes are equal if and only if their fields are equal"). -/
theorem pyNodeEq_hash_collision :
    ∀ (strHash : String → Int) (tupleHash : List Int → Int) (coordHash : List ℚ → Int),
      pyNodeEq strHash tupleHash coordHash hashCollideA hashCollideB = true ∧
      hashCollideA ≠ hashCollideB := by
  intro strHash tupleHash coordHash
  constructor
  · have h : pyIntHash (-1) = pyIntHash (-2) := by decide
    simp [pyNodeEq, pyNodeHash, hashCollideA, hashCollideB, h]
  · intro h
    have : (-1 : Int) = -2 := congrArg EuclideanNode.floor h
    simp at this

/-! ### Concrete nodes and graphs used in counterexamples and witnesses -/

/-- Start node of the concrete reduced graph `GC1`. -/
def nS : EuclideanNode := ⟨"Classroom", "S", 0, [0, 0]⟩

/-- Second node of `GC1`, straight-line nearer to `nS` than `nB` is. -/
def nA : EuclideanNode := ⟨"Classroom", "A", 0, [3, 0]⟩

/-- Third node of `GC1`, reduced-edge-weight nearer to `nS` than `nA` is. -/
def nB : EuclideanNode := ⟨"Classroom", "B", 0, [4, 0]⟩

/-- The reduced graph with no nodes or edges that `_reduce_graph` starts from:
`ReducedGraph(start)` with an empty networkx graph and an empty `edge_dict`. -/
def emptyReduced (s : EuclideanNode) : ReducedGraph :=
  { start := s, nodes := [], wt := fun _ _ => none, paths := fun _ _ => none }

/-- A complete reduced graph over `nS, nA, nB` on which straight-line distance
and reduced edge weight order the candidates differently: from `nS`, node `nA`
is straight-line nearest (9 < 16 in squared distance) while node `nB` is
edge-weight nearest (5 < 100). -/
def GC1 : ReducedGraph :=
  addReducedEdge (addReducedEdge (addReducedEdge (emptyReduced nS) nS nA [nS, nA] 100)
    nS nB [nS, nB] 5) nA nB [nA, nB] 1

/-! ### C5: algorithm-name dispatch -/

/-- C5 counterexample: the hyphenated name `"brute-force"` the claim lists as a
supported name is rejected by `tsp_solver` — the code recognizes only
`"greedy"` and `"brute force"` (after lowercasing) and raises
`NotImplementedError` for everything else. -/
theorem tsp_solver_hyphen_rejected :
    tsp_solver GC1 "brute-force" =
      .error ("\"brute-force\" is not recognized as an implemented algorithm. " ++
        "Implemented algorithms: \n\t- greedy\n\t- brute force") := by
  rfl

/-- C5 as amended: every algorithm name whose lowercasing is neither `"greedy"`
nor `"brute force"` makes `tsp_solver` fail with the `NotImplementedError`
message enumerating the two implemented names, producing no route. -/
theorem tsp_solver_unknown_algorithm (g : ReducedGraph) (a : String)
    (h1 : strLower a ≠ "greedy") (h2 : strLower a ≠ "brute force") :
    tsp_solver g a =
      .error ("\"" ++ a ++ "\" is not recognized as an implemented algorithm. " ++
        "Implemented algorithms: \n\t- greedy\n\t- brute force") := by
  simp only [tsp_solver, if_neg h1, if_neg h2]
  rfl

/-- Witness for C5 at the concrete unknown name `"dijkstra"`. -/
theorem tsp_solver_unknown_algorithm_witness :
    (strLower "dijkstra" ≠ "greedy") ∧
    tsp_solver GC1 "dijkstra" =
      .error ("\"dijkstra\" is not recognized as an implemented algorithm. " ++
        "Implemented algorithms: \n\t- greedy\n\t- brute force") :=
  ⟨by decide, tsp_solver_unknown_algorithm GC1 "dijkstra" (by decide) (by decide)⟩

/-! ### C10 and C7: `expand_path` -/

theorem expandPath_isOk (ed : EuclideanNode → EuclideanNode → Option (List EuclideanNode)) :
    ∀ rp : List EuclideanNode, 2 ≤ rp.length →
      rp.Chain' (fun u v => (ed u v).isSome) →
      ∃ full, expandPath ed rp = .ok full := by
  intro rp
  induction rp with
  | nil => intro h; simp at h
  | cons u rest ih =>
    cases rest with
    | nil => intro h; simp at h
    | cons v rest2 =>
      cases rest2 with
      | nil =>
        intro _ hch
        have h1 : (ed u v).isSome := (List.chain'_cons.mp hch).1
        obtain ⟨p, hp⟩ := Option.isSome_iff_exists.mp h1
        exact ⟨p, by simp [expandPath, hp]⟩
      | cons w rest3 =>
        intro _ hch
        have h1 : (ed u v).isSome := (List.chain'_cons.mp hch).1
        have h2 : (v :: w :: rest3).Chain' (fun a b => (ed a b).isSome) :=
          (List.chain'_cons.mp hch).2
        obtain ⟨p, hp⟩ := Option.isSome_iff_exists.mp h1
        obtain ⟨full, hfull⟩ := ih (by simp) h2
        refine ⟨p.dropLast ++ full, ?_⟩
        simp only [expandPath, hp, hfull]
        rfl

/-- C10 (implicit): `expand_path` is defined only on routes of at least two
nodes — on the empty or singleton route the code fails with the out-of-range
index access `reduced_path[-2]` instead of returning an empty or singleton
walk — and whenever the route has length at least two and every consecutive
pair has a stored path, every index and dictionary access succeeds and a full
path is returned. -/
theorem expandPath_domain :
    (∀ ed, expandPath ed [] = .error "IndexError: reduced_path[-2] out of range") ∧
    (∀ ed (u : EuclideanNode),
      expandPath ed [u] = .error "IndexError: reduced_path[-2] out of range") ∧
    (∀ ed (rp : List EuclideanNode), 2 ≤ rp.length →
      rp.Chain' (fun a b => (ed a b).isSome) →
      ∃ full, expandPath ed rp = .ok full) :=
  ⟨fun _ => rfl, fun _ _ => rfl, fun ed rp h2 hch => expandPath_isOk ed rp h2 hch⟩

/-- Spec-side description of the stored segments of a route (used to state C7):
the stored path of each consecutive pair of the route. -/
def consecutiveStoredPaths (ed : EuclideanNode → EuclideanNode → Option (List EuclideanNode))
    (rp : List EuclideanNode) : Option (List (List EuclideanNode)) :=
  (rp.zip rp.tail).mapM (fun uv => ed uv.1 uv.2)

theorem consecutiveStoredPaths_cons
    (ed : EuclideanNode → EuclideanNode → Option (List EuclideanNode))
    (u v : EuclideanNode) (rest : List EuclideanNode) :
    consecutiveStoredPaths ed (u :: v :: rest) = do
      let p ← ed u v
      let ps ← consecutiveStoredPaths ed (v :: rest)
      return p :: ps := by
  unfold consecutiveStoredPaths
  rw [List.tail_cons, List.tail_cons, List.zip_cons_cons, List.mapM_cons]

theorem expandPath_struct (ed : EuclideanNode → EuclideanNode → Option (List EuclideanNode)) :
    ∀ rp : List EuclideanNode, 2 ≤ rp.length →
      rp.Chain' (fun u v => ∃ p, ed u v = some p ∧ p.head? = some u ∧ p.getLast? = some v) →
      ∃ s0 segs full,
        consecutiveStoredPaths ed rp = some (s0 :: segs) ∧
        expandPath ed rp = .ok full ∧
        full = s0 ++ (segs.map List.tail).flatten ∧
        s0.head? = rp.head? ∧
        full.head? = rp.head? ∧
        full.getLast? = rp.getLast? := by
  intro rp
  induction rp with
  | nil => intro h; simp at h
  | cons u rest ih =>
    cases rest with
    | nil => intro h; simp at h
    | cons v rest2 =>
      cases rest2 with
      | nil =>
        intro _ hch
        obtain ⟨p, hp, hph, hpl⟩ := (List.chain'_cons.mp hch).1
        refine ⟨p, [], p, ?_, ?_, ?_, ?_, ?_, ?_⟩
        · rw [consecutiveStoredPaths_cons, hp]
          rfl
        · simp [expandPath, hp]
        · simp
        · simpa using hph
        · simpa using hph
        · simpa using hpl
      | cons w rest3 =>
        intro _ hch
        obtain ⟨p, hp, hph, hpl⟩ := (List.chain'_cons.mp hch).1
        have hch2 := (List.chain'_cons.mp hch).2
        obtain ⟨s0, segs, full, hmap, hexp, hfull, hs0h, hfh, hfl⟩ := ih (by simp) hch2
        have hs0v : s0.head? = some v := by simpa using hs0h
        obtain ⟨s0t, hs0⟩ : ∃ t, s0 = v :: t := by
          cases s0 with
          | nil => simp at hs0v
          | cons a t => simp at hs0v; exact ⟨t, by rw [hs0v]⟩
        have hpv : p ≠ [] := by
          intro h
          rw [h] at hpl
          simp at hpl
        have hpd : p.dropLast ++ s0 = p ++ s0.tail := by
          have hlast : p.getLast hpv = v := by
            have hg := List.getLast?_eq_getLast p hpv
            rw [hpl] at hg
            exact (Option.some.inj hg).symm
          conv_rhs => rw [← List.dropLast_append_getLast hpv]
          rw [hlast, hs0]
          simp
        refine ⟨p, s0 :: segs, p.dropLast ++ full, ?_, ?_, ?_, ?_, ?_, ?_⟩
        · rw [consecutiveStoredPaths_cons, hp, hmap]
          rfl
        · simp only [expandPath, hp, hexp]
          rfl
        · rw [hfull, List.map_cons, List.flatten_cons, ← List.append_assoc,
            ← List.append_assoc, hpd]
        · simpa using hph
        · obtain ⟨pt, hpt⟩ : ∃ t, p = u :: t := by
            cases p with
            | nil => simp at hph
            | cons a t => simp at hph; exact ⟨t, by rw [hph]⟩
          rw [hfull, ← List.append_assoc, hpd, hpt]
          simp
        · have hfne : full ≠ [] := by
            intro h
            rw [h] at hfh
            simp at hfh
          rw [List.getLast?_append_of_ne_nil p.dropLast hfne, hfl]
          simp [List.getLast?_cons_cons]

/-- Stored-path map for the concrete expansion examples of C7:
`(eS, eA) ↦ [eS, eJ, eA]` and `(eA, eB) ↦ [eA, eK, eB]` (with their reversals,
as `add_reduced_edge` would store them). -/
def edEx : EuclideanNode → EuclideanNode → Option (List EuclideanNode) := fun u v =>
  if u = ⟨"Classroom", "ES", 1, [0, 0]⟩ ∧ v = ⟨"Classroom", "EA", 1, [2, 0]⟩ then
    some [⟨"Classroom", "ES", 1, [0, 0]⟩, ⟨"Hallway", "EJ", 1, [1, 0]⟩,
      ⟨"Classroom", "EA", 1, [2, 0]⟩]
  else if u = ⟨"Classroom", "EA", 1, [2, 0]⟩ ∧ v = ⟨"Classroom", "ES", 1, [0, 0]⟩ then
    some [⟨"Classroom", "EA", 1, [2, 0]⟩, ⟨"Hallway", "EJ", 1, [1, 0]⟩,
      ⟨"Classroom", "ES", 1, [0, 0]⟩]
  else if u = ⟨"Classroom", "EA", 1, [2, 0]⟩ ∧ v = ⟨"Classroom", "EB", 1, [4, 0]⟩ then
    some [⟨"Classroom", "EA", 1, [2, 0]⟩, ⟨"Hallway", "EK", 1, [3, 0]⟩,
      ⟨"Classroom", "EB", 1, [4, 0]⟩]
  else if u = ⟨"Classroom", "EB", 1, [4, 0]⟩ ∧ v = ⟨"Classroom", "EA", 1, [2, 0]⟩ then
    some [⟨"Classroom", "EB", 1, [4, 0]⟩, ⟨"Hallway", "EK", 1, [3, 0]⟩,
      ⟨"Classroom", "EA", 1, [2, 0]⟩]
  else none

/-- C7: expanding a route of at least two nodes whose consecutive pairs all have
stored paths (each running from its pair's first node to its second) concatenates
the stored segments, keeping each shared junction once (the first segment whole,
every later segment without its leading node); the expansion starts and ends at
the route's first and last reduced nodes.  Concretely, the two-node route
`[S, A]` with stored path `[S, J, A]` expands to `[S, J, A]`, and the three-node
route `[S, A, B]` with stored paths `[S, J, A]` and `[A, K, B]` expands to
`[S, J, A, K, B]`. -/
theorem expandPath_expansion :
    (∀ (ed : EuclideanNode → EuclideanNode → Option (List EuclideanNode))
      (rp : List EuclideanNode), 2 ≤ rp.length →
      rp.Chain' (fun u v => ∃ p, ed u v = some p ∧ p.head? = some u ∧ p.getLast? = some v) →
      ∃ s0 segs full,
        consecutiveStoredPaths ed rp = some (s0 :: segs) ∧
        expandPath ed rp = .ok full ∧
        full = s0 ++ (segs.map List.tail).flatten ∧
        full.head? = rp.head? ∧
        full.getLast? = rp.getLast?) ∧
    expandPath edEx [⟨"Classroom", "ES", 1, [0, 0]⟩, ⟨"Classroom", "EA", 1, [2, 0]⟩] =
      .ok [⟨"Classroom", "ES", 1, [0, 0]⟩, ⟨"Hallway", "EJ", 1, [1, 0]⟩,
        ⟨"Classroom", "EA", 1, [2, 0]⟩] ∧
    expandPath edEx [⟨"Classroom", "ES", 1, [0, 0]⟩, ⟨"Classroom", "EA", 1, [2, 0]⟩,
        ⟨"Classroom", "EB", 1, [4, 0]⟩] =
      .ok [⟨"Classroom", "ES", 1, [0, 0]⟩, ⟨"Hallway", "EJ", 1, [1, 0]⟩,
        ⟨"Classroom", "EA", 1, [2, 0]⟩, ⟨"Hallway", "EK", 1, [3, 0]⟩,
        ⟨"Classroom", "EB", 1, [4, 0]⟩] := by
  refine ⟨?_, by rfl, by rfl⟩
  intro ed rp h2 hch
  obtain ⟨s0, segs, full, hmap, hexp, hfull, _, hfh, hfl⟩ := expandPath_struct ed rp h2 hch
  exact ⟨s0, segs, full, hmap, hexp, hfull, hfh, hfl⟩

/-- Witness for C7's quantified part at the concrete route `[eS, eA, eB]`. -/
theorem expandPath_expansion_witness :
    (2 ≤ ([⟨"Classroom", "ES", 1, [0, 0]⟩, ⟨"Classroom", "EA", 1, [2, 0]⟩,
      ⟨"Classroom", "EB", 1, [4, 0]⟩] : List EuclideanNode).length) ∧
    ∃ s0 segs full,
      consecutiveStoredPaths edEx [⟨"Classroom", "ES", 1, [0, 0]⟩,
        ⟨"Classroom", "EA", 1, [2, 0]⟩, ⟨"Classroom", "EB", 1, [4, 0]⟩] = some (s0 :: segs) ∧
      expandPath edEx [⟨"Classroom", "ES", 1, [0, 0]⟩, ⟨"Classroom", "EA", 1, [2, 0]⟩,
        ⟨"Classroom", "EB", 1, [4, 0]⟩] = .ok full ∧
      full = s0 ++ (segs.map List.tail).flatten ∧
      full.head? = ([⟨"Classroom", "ES", 1, [0, 0]⟩, ⟨"Classroom", "EA", 1, [2, 0]⟩,
        ⟨"Classroom", "EB", 1, [4, 0]⟩] : List EuclideanNode).head? ∧
      full.getLast? = ([⟨"Classroom", "ES", 1, [0, 0]⟩, ⟨"Classroom", "EA", 1, [2, 0]⟩,
        ⟨"Classroom", "EB", 1, [4, 0]⟩] : List EuclideanNode).getLast? :=
  ⟨by decide, expandPath_expansion.1 edEx _ (by decide) (by
    refine List.chain'_cons.mpr ⟨?_, List.chain'_cons.mpr ⟨?_, List.chain'_singleton _⟩⟩
    · exact ⟨_, by rfl, by rfl, by rfl⟩
    · exact ⟨_, by rfl, by rfl, by rfl⟩)⟩

/-- Witness for C10's quantified part at the concrete route `[eS, eA]`. -/
theorem expandPath_domain_witness :
    (2 ≤ ([⟨"Classroom", "ES", 1, [0, 0]⟩, ⟨"Classroom", "EA", 1, [2, 0]⟩] :
      List EuclideanNode).length) ∧
    ∃ full, expandPath edEx [⟨"Classroom", "ES", 1, [0, 0]⟩,
      ⟨"Classroom", "EA", 1, [2, 0]⟩] = .ok full :=
  ⟨by decide, expandPath_domain.2.2 edEx _ (by decide)
    (List.chain'_cons.mpr ⟨by rfl, List.chain'_singleton _⟩)⟩

/-! ### C1: what metric does the greedy solver minimize? -/

/-- The step-by-step behavior of `_greedy`'s loop under an arbitrary selection
key: starting from `cur` with `visited` already visited, the remainder of the
greedy path appends, at each step, an unvisited neighbor of the current node
minimizing `key cur ·`, and stops exactly when every neighbor of the current
node has been visited. -/
inductive GreedyTrace (g : ReducedGraph) (key : EuclideanNode → EuclideanNode → ℚ) :
    EuclideanNode → List EuclideanNode → List EuclideanNode → Prop where
  | done : ∀ cur visited, (∀ m ∈ neighborsList g cur, m ∈ visited) →
      GreedyTrace g key cur visited []
  | step : ∀ cur visited next rest,
      next ∈ neighborsList g cur →
      next ∉ visited →
      (∀ m ∈ neighborsList g cur, m ∉ visited → key cur next ≤ key cur m) →
      GreedyTrace g key next (visited ++ [next]) rest →
      GreedyTrace g key cur visited (next :: rest)

theorem greedyGo_trace (g : ReducedGraph) (key : EuclideanNode → EuclideanNode → ℚ) :
    ∀ (n : ℕ) (cur : EuclideanNode) (visited : List EuclideanNode),
      (g.nodes.filter (fun m => decide (m ∉ visited))).length ≤ n →
      GreedyTrace g key cur visited (greedyGo g key cur visited) := by
  intro n
  induction n with
  | zero =>
    intro cur visited hn
    rw [greedyGo_unfold]
    cases hm : minKey (key cur) ((neighborsList g cur).filter (fun m => decide (m ∉ visited))) with
    | none =>
      apply GreedyTrace.done
      intro m hmem
      by_contra hmv
      have : m ∈ (neighborsList g cur).filter (fun m => decide (m ∉ visited)) :=
        List.mem_filter.mpr ⟨hmem, by simpa using hmv⟩
      rw [minKey_eq_none_iff.mp hm] at this
      simp at this
    | some nearest =>
      exfalso
      have hmem := minKey_mem hm
      have h1 : nearest ∈ neighborsList g cur := (List.mem_filter.mp hmem).1
      have h2 : nearest ∉ visited := by simpa using (List.mem_filter.mp hmem).2
      have h3 : nearest ∈ g.nodes := (List.mem_filter.mp h1).1
      have h4 : nearest ∈ g.nodes.filter (fun m => decide (m ∉ visited)) :=
        List.mem_filter.mpr ⟨h3, by simpa using h2⟩
      have h5 : 0 < (g.nodes.filter (fun m => decide (m ∉ visited))).length :=
        List.length_pos.mpr (by intro h; rw [h] at h4; simp at h4)
      omega
  | succ n ih =>
    intro cur visited hn
    rw [greedyGo_unfold]
    cases hm : minKey (key cur) ((neighborsList g cur).filter (fun m => decide (m ∉ visited))) with
    | none =>
      apply GreedyTrace.done
      intro m hmem
      by_contra hmv
      have : m ∈ (neighborsList g cur).filter (fun m => decide (m ∉ visited)) :=
        List.mem_filter.mpr ⟨hmem, by simpa using hmv⟩
      rw [minKey_eq_none_iff.mp hm] at this
      simp at this
    | some nearest =>
      have hmem := minKey_mem hm
      have h1 : nearest ∈ neighborsList g cur := (List.mem_filter.mp hmem).1
      have h2 : nearest ∉ visited := by simpa using (List.mem_filter.mp hmem).2
      have h3 : nearest ∈ g.nodes := (List.mem_filter.mp h1).1
      apply GreedyTrace.step cur visited nearest _ h1 h2
      · intro m hmn hmv
        exact minKey_le hm m (List.mem_filter.mpr ⟨hmn, by simpa using hmv⟩)
      · apply ih
        have := length_filter_not_mem_lt h3 h2
        omega

/-- C1 as amended: the greedy solver starts at `start` and repeatedly appends the
not-yet-visited neighbor of the current node that is nearest by the straight-line
Euclidean distance between the two nodes' coordinates (`euclidean_dist_nodes`,
represented by its radicand `sqDistN`, an equivalent comparison) — not by the
reduced-graph edge weight — stopping when no unvisited neighbor remains. -/
theorem greedy_selects_by_euclidean (g : ReducedGraph) :
    (greedyPath g).head? = some g.start ∧
    GreedyTrace g sqDistN g.start [g.start] (greedyPath g).tail := by
  constructor
  · rfl
  · show GreedyTrace g sqDistN g.start [g.start] (greedyGo g sqDistN g.start [g.start])
    exact greedyGo_trace g sqDistN _ g.start [g.start] (le_refl _)

/-- C1 counterexample: on the complete reduced graph `GC1` the greedy solver's
second node is `nA`, the straight-line nearest, even though `nB` is strictly
nearer by reduced-graph edge weight (5 < 100); the selection the claim describes
(`greedyPathByWeightSpec`, by edge weight) would pick `nB`.  So the greedy
solver does not append the nearest unvisited node as measured by the
reduced-graph edge weight. -/
theorem greedy_not_by_edge_weight :
    greedyPath GC1 = [nS, nA, nB] ∧
    greedyPathByWeightSpec GC1 = [nS, nB, nA] ∧
    GC1.wt nS nB = some 5 ∧
    GC1.wt nS nA = some 100 ∧
    ((5 : ℚ) < 100) ∧
    nA ≠ nB := by
  refine ⟨?_, ?_, by rfl, by rfl, by norm_num, by decide⟩
  · show GC1.start :: greedyGo GC1 sqDistN GC1.start [GC1.start] = [nS, nA, nB]
    show nS :: greedyGo GC1 sqDistN nS [nS] = [nS, nA, nB]
    rw [greedyGo_unfold]
    rw [show minKey (sqDistN nS) ((neighborsList GC1 nS).filter (fun m => decide (m ∉ [nS]))) =
        some nA from by
      rw [show (neighborsList GC1 nS).filter (fun m => decide (m ∉ [nS])) = [nA, nB] from by decide]
      simp only [minKey]
      norm_num [sqDistN, sumSqDiff, nS, nA, nB]]
    show nS :: nA :: greedyGo GC1 sqDistN nA ([nS] ++ [nA]) = [nS, nA, nB]
    rw [greedyGo_unfold]
    rw [show minKey (sqDistN nA) ((neighborsList GC1 nA).filter (fun m => decide (m ∉ [nS] ++ [nA]))) =
        some nB from by
      rw [show (neighborsList GC1 nA).filter (fun m => decide (m ∉ [nS] ++ [nA])) = [nB] from by
        decide]
      simp only [minKey]]
    show nS :: nA :: nB :: greedyGo GC1 sqDistN nB (([nS] ++ [nA]) ++ [nB]) = [nS, nA, nB]
    rw [greedyGo_unfold]
    rw [show minKey (sqDistN nB)
        ((neighborsList GC1 nB).filter (fun m => decide (m ∉ ([nS] ++ [nA]) ++ [nB]))) =
        none from by
      rw [show (neighborsList GC1 nB).filter (fun m => decide (m ∉ ([nS] ++ [nA]) ++ [nB])) = []
        from by decide]
      simp only [minKey]]
  · show GC1.start :: greedyGo GC1 (fun c m => (GC1.wt c m).getD 0) GC1.start [GC1.start] =
      [nS, nB, nA]
    show nS :: greedyGo GC1 (fun c m => (GC1.wt c m).getD 0) nS [nS] = [nS, nB, nA]
    rw [greedyGo_unfold]
    rw [show minKey ((fun c m => (GC1.wt c m).getD 0) nS)
        ((neighborsList GC1 nS).filter (fun m => decide (m ∉ [nS]))) = some nB from by decide]
    show nS :: nB :: greedyGo GC1 (fun c m => (GC1.wt c m).getD 0) nB ([nS] ++ [nB]) =
      [nS, nB, nA]
    rw [greedyGo_unfold]
    rw [show minKey ((fun c m => (GC1.wt c m).getD 0) nB)
        ((neighborsList GC1 nB).filter (fun m => decide (m ∉ [nS] ++ [nB]))) = some nA from by
      decide]
    show nS :: nB :: nA :: greedyGo GC1 (fun c m => (GC1.wt c m).getD 0) nA
      (([nS] ++ [nB]) ++ [nA]) = [nS, nB, nA]
    rw [greedyGo_unfold]
    rw [show minKey ((fun c m => (GC1.wt c m).getD 0) nA)
        ((neighborsList GC1 nA).filter (fun m => decide (m ∉ ([nS] ++ [nB]) ++ [nA]))) = none
      from by decide]

/-! ### C4: brute force is optimal -/

theorem pathLen_isSome_of_chain (wt : EuclideanNode → EuclideanNode → Option ℚ) :
    ∀ p : List EuclideanNode, p.Chain' (fun u v => (wt u v).isSome) →
      (pathLen wt p).isSome := by
  intro p
  induction p with
  | nil => intro _; simp [pathLen]
  | cons u rest ih =>
    cases rest with
    | nil => intro _; simp [pathLen]
    | cons v rest2 =>
      intro hch
      obtain ⟨w, hw⟩ := Option.isSome_iff_exists.mp (List.chain'_cons.mp hch).1
      obtain ⟨r, hr⟩ := Option.isSome_iff_exists.mp (ih (List.chain'_cons.mp hch).2)
      simp [pathLen, hw, hr]

theorem chain'_wt_of_nodup (g : ReducedGraph)
    (hc : ∀ u ∈ g.nodes, ∀ v ∈ g.nodes, u ≠ v → (g.wt u v).isSome) :
    ∀ l : List EuclideanNode, l.Nodup → (∀ x ∈ l, x ∈ g.nodes) →
      l.Chain' (fun u v => (g.wt u v).isSome) := by
  intro l
  induction l with
  | nil => intro _ _; simp
  | cons u rest ih =>
    intro hnd hmem
    cases rest with
    | nil => simp
    | cons v rest2 =>
      rw [List.chain'_cons]
      refine ⟨?_, ih (List.Nodup.of_cons hnd) (fun x hx => hmem x (List.mem_cons_of_mem u hx))⟩
      apply hc u (hmem u (List.mem_cons_self u _)) v (hmem v (by simp))
      intro h
      rw [List.nodup_cons] at hnd
      exact hnd.1 (h ▸ List.mem_cons_self v rest2)

theorem mapM_isSome_of_forall {α β : Type} (f : α → Option β) :
    ∀ xs : List α, (∀ x ∈ xs, (f x).isSome) → ∃ ys, xs.mapM f = some ys := by
  intro xs
  induction xs with
  | nil => intro _; exact ⟨[], rfl⟩
  | cons x xs ih =>
    intro h
    obtain ⟨y, hy⟩ := Option.isSome_iff_exists.mp (h x (List.mem_cons_self x xs))
    obtain ⟨ys, hys⟩ := ih (fun a ha => h a (List.mem_cons_of_mem x ha))
    refine ⟨y :: ys, ?_⟩
    rw [List.mapM_cons, hy, hys]
    rfl

theorem mapM_forall2 {α β : Type} (f : α → Option β) :
    ∀ (xs : List α) (ys : List β), xs.mapM f = some ys →
      List.Forall₂ (fun x y => f x = some y) xs ys := by
  intro xs
  induction xs with
  | nil =>
    intro ys h
    rw [List.mapM_nil] at h
    cases h
    exact List.Forall₂.nil
  | cons x xs ih =>
    intro ys h
    rw [List.mapM_cons] at h
    cases hfx : f x with
    | none => rw [hfx] at h; simp at h
    | some y =>
      rw [hfx] at h
      cases hm : xs.mapM f with
      | none => rw [hm] at h; simp at h
      | some ys' =>
        rw [hm] at h
        have h' : some (y :: ys') = some ys := h
        cases h'
        exact List.Forall₂.cons hfx (ih ys' hm)

theorem forall2_mem_right {α β : Type} {R : α → β → Prop} :
    ∀ {xs : List α} {ys : List β}, List.Forall₂ R xs ys → ∀ y ∈ ys, ∃ x ∈ xs, R x y := by
  intro xs ys h
  induction h with
  | nil => intro y hy; simp at hy
  | cons hR hrest ih =>
    intro y hy
    rcases List.mem_cons.mp hy with h1 | h2
    · exact ⟨_, List.mem_cons_self _ _, h1 ▸ hR⟩
    · obtain ⟨x, hx, hxy⟩ := ih y h2
      exact ⟨x, List.mem_cons_of_mem _ hx, hxy⟩

theorem forall2_mem_left {α β : Type} {R : α → β → Prop} :
    ∀ {xs : List α} {ys : List β}, List.Forall₂ R xs ys → ∀ x ∈ xs, ∃ y ∈ ys, R x y := by
  intro xs ys h
  induction h with
  | nil => intro x hx; simp at hx
  | cons hR hrest ih =>
    intro x hx
    rcases List.mem_cons.mp hx with h1 | h2
    · exact ⟨_, List.mem_cons_self _ _, h1 ▸ hR⟩
    · obtain ⟨y, hy, hxy⟩ := ih x h2
      exact ⟨y, List.mem_cons_of_mem _ hy, hxy⟩

theorem bruteForce_spec (g : ReducedGraph) (hnd : g.nodes.Nodup) (hs : g.start ∈ g.nodes)
    (hc : ∀ u ∈ g.nodes, ∀ v ∈ g.nodes, u ≠ v → (g.wt u v).isSome) :
    ∃ p l, bruteForce g = some (g.start :: p, l) ∧
      p.Perm (g.nodes.filter (fun n => n ≠ g.start)) ∧
      pathLen g.wt (g.start :: p) = some l ∧
      ∀ q lq, q.Perm (g.nodes.filter (fun n => n ≠ g.start)) →
        pathLen g.wt (g.start :: q) = some lq → l ≤ lq := by
  have hom : ∀ x, x ∈ g.nodes.filter (fun n => n ≠ g.start) ↔ (x ∈ g.nodes ∧ x ≠ g.start) := by
    intro x
    simp [List.mem_filter]
  have hond : (g.nodes.filter (fun n => n ≠ g.start)).Nodup := hnd.filter _
  have hcand : ∀ pp ∈ (g.nodes.filter (fun n => n ≠ g.start)).permutations,
      (pathLen g.wt (g.start :: pp)).isSome := by
    intro pp hpp
    have hperm : pp.Perm (g.nodes.filter (fun n => n ≠ g.start)) := List.mem_permutations.mp hpp
    have hppnd : pp.Nodup := hperm.symm.nodup hond
    have hppmem : ∀ x ∈ pp, x ∈ g.nodes ∧ x ≠ g.start := by
      intro x hx
      exact (hom x).mp (hperm.mem_iff.mp hx)
    apply pathLen_isSome_of_chain
    apply chain'_wt_of_nodup g hc
    · rw [List.nodup_cons]
      exact ⟨fun h => (hppmem _ h).2 rfl, hppnd⟩
    · intro x hx
      rcases List.mem_cons.mp hx with h1 | h2
      · exact h1 ▸ hs
      · exact (hppmem x h2).1
  obtain ⟨scored, hscored⟩ := mapM_isSome_of_forall
    (fun p => (pathLen g.wt p).map (fun l => (p, l)))
    (((g.nodes.filter (fun n => n ≠ g.start)).permutations).map (fun p => g.start :: p))
    (by
      intro c hc'
      obtain ⟨pp, hpp, hppc⟩ := List.mem_map.mp hc'
      subst hppc
      obtain ⟨l, hl⟩ := Option.isSome_iff_exists.mp (hcand pp hpp)
      simp [hl])
  have hf2 := mapM_forall2 _ _ _ hscored
  have hne : scored ≠ [] := by
    intro h
    subst h
    have hlen := hf2.length_eq
    rw [List.length_map, List.length_nil] at hlen
    have hmm : (g.nodes.filter (fun n => n ≠ g.start)) ∈
        (g.nodes.filter (fun n => n ≠ g.start)).permutations :=
      List.mem_permutations.mpr (List.Perm.refl _)
    rw [List.length_eq_zero.mp hlen] at hmm
    simp at hmm
  obtain ⟨best, hbest⟩ : ∃ b, minKey (fun x => x.2) scored = some b := by
    cases hb : minKey (fun x : List EuclideanNode × ℚ => x.2) scored with
    | none => exact absurd (minKey_eq_none_iff.mp hb) hne
    | some b => exact ⟨b, rfl⟩
  have hbf : bruteForce g = some best := by
    simp only [bruteForce]
    rw [hscored]
    simpa using hbest
  have hbmem := minKey_mem hbest
  obtain ⟨c, hcmem, hcb⟩ := forall2_mem_right hf2 best hbmem
  obtain ⟨pp, hpp, hppc⟩ := List.mem_map.mp hcmem
  have hplen : pathLen g.wt c = some best.2 ∧ best.1 = c := by
    cases hpl : pathLen g.wt c with
    | none => rw [hpl] at hcb; simp at hcb
    | some l =>
      rw [hpl] at hcb
      simp only [Option.map_some', Option.some.injEq] at hcb
      constructor
      · rw [← hcb]
      · rw [← hcb]
  refine ⟨pp, best.2, ?_, List.mem_permutations.mp hpp, ?_, ?_⟩
  · rw [hbf]
    have hb1 : best.1 = g.start :: pp := by rw [hplen.2, ← hppc]
    rw [show best = (g.start :: pp, best.2) from by rw [← hb1]]
  · rw [hppc]
    exact hplen.1
  · intro q lq hqperm hqlen
    have hqmem : (g.start :: q) ∈
        ((g.nodes.filter (fun n => n ≠ g.start)).permutations).map (fun p => g.start :: p) :=
      List.mem_map.mpr ⟨q, List.mem_permutations.mpr hqperm, rfl⟩
    obtain ⟨y, hy, hyq⟩ := forall2_mem_left hf2 _ hqmem
    rw [hqlen] at hyq
    simp only [Option.map_some', Option.some.injEq] at hyq
    have := minKey_le hbest y hy
    rw [← hyq] at this
    exact this

/-- C4: on a complete reduced graph (with pairwise-distinct nodes, the start
among them, and at least one other node) the brute-force solver returns
`start` followed by a permutation of the remaining nodes whose total
`_path_len` is defined and is less than or equal to the total length of `start`
followed by any other permutation of those nodes, together with that minimum
total length. -/
theorem bruteForce_optimal (g : ReducedGraph) (hnd : g.nodes.Nodup)
    (hs : g.start ∈ g.nodes)
    (hc : ∀ u ∈ g.nodes, ∀ v ∈ g.nodes, u ≠ v → (g.wt u v).isSome)
    (hR : ∃ n ∈ g.nodes, n ≠ g.start) :
    ∃ p l, bruteForce g = some (g.start :: p, l) ∧
      p.Perm (g.nodes.filter (fun n => n ≠ g.start)) ∧
      pathLen g.wt (g.start :: p) = some l ∧
      ∀ q lq, q.Perm (g.nodes.filter (fun n => n ≠ g.start)) →
        pathLen g.wt (g.start :: q) = some lq → l ≤ lq :=
  bruteForce_spec g hnd hs hc

/-- The reduction-and-solve scenario of the spec: required nodes `S, A, B`
with reduced pairwise weights `S–A = 10`, `S–B = 14`, `A–B = 8`. -/
def GC2 : ReducedGraph :=
  addReducedEdge (addReducedEdge (addReducedEdge (emptyReduced nS) nS nA [nS, nA] 10)
    nS nB [nS, nB] 14) nA nB [nA, nB] 8

/-- Witness for C4 at the concrete complete graph `GC2`. -/
theorem bruteForce_optimal_witness :
    GC2.nodes.Nodup ∧
    ∃ p l, bruteForce GC2 = some (GC2.start :: p, l) ∧
      p.Perm (GC2.nodes.filter (fun n => n ≠ GC2.start)) ∧
      pathLen GC2.wt (GC2.start :: p) = some l ∧
      ∀ q lq, q.Perm (GC2.nodes.filter (fun n => n ≠ GC2.start)) →
        pathLen GC2.wt (GC2.start :: q) = some lq → l ≤ lq :=
  ⟨by decide, bruteForce_optimal GC2 (by decide) (by decide) (by decide)
    ⟨nA, by decide, by decide⟩⟩

/-! ### C8: optimality dominance of brute force over greedy -/

theorem trace_subset {g : ReducedGraph} {key : EuclideanNode → EuclideanNode → ℚ}
    {cur : EuclideanNode} {visited rest : List EuclideanNode}
    (h : GreedyTrace g key cur visited rest) : ∀ x ∈ rest, x ∈ g.nodes := by
  induction h with
  | done => intro x hx; simp at hx
  | step cur' visited' next rest' hmem hnv hmin htail ih =>
    intro x hx
    rcases List.mem_cons.mp hx with h1 | h2
    · exact h1 ▸ (List.mem_filter.mp hmem).1
    · exact ih x h2

theorem trace_nodup {g : ReducedGraph} {key : EuclideanNode → EuclideanNode → ℚ}
    {cur : EuclideanNode} {visited rest : List EuclideanNode}
    (h : GreedyTrace g key cur visited rest) : visited.Nodup → (visited ++ rest).Nodup := by
  induction h with
  | done => intro hv; simpa using hv
  | step cur' visited' next rest' hmem hnv hmin htail ih =>
    intro hv
    have h1 : (visited' ++ [next]).Nodup := by
      rw [List.nodup_append]
      exact ⟨hv, List.nodup_singleton next, by simpa using hnv⟩
    have h2 := ih h1
    rw [List.append_assoc] at h2
    simpa using h2

theorem trace_covers {g : ReducedGraph} {key : EuclideanNode → EuclideanNode → ℚ}
    {cur : EuclideanNode} {visited rest : List EuclideanNode}
    (hc : ∀ u ∈ g.nodes, ∀ v ∈ g.nodes, u ≠ v → (g.wt u v).isSome)
    (h : GreedyTrace g key cur visited rest) :
    cur ∈ g.nodes → cur ∈ visited → ∀ m ∈ g.nodes, m ∈ visited ++ rest := by
  induction h with
  | done cur' visited' hall =>
    intro hcn hcv m hm
    rw [List.append_nil]
    by_cases hmc : m = cur'
    · exact hmc ▸ hcv
    · apply hall
      apply List.mem_filter.mpr
      exact ⟨hm, hc cur' hcn m hm (fun h => hmc h.symm)⟩
  | step cur' visited' next rest' hmem hnv hmin htail ih =>
    intro hcn hcv m hm
    have hnextn : next ∈ g.nodes := (List.mem_filter.mp hmem).1
    have := ih hnextn (by simp) m hm
    rw [List.append_assoc] at this
    simpa using this

/-- C8: on a complete reduced graph with at least two pairwise-distinct nodes
and the start among them, the total length `_brute_force` returns is less than
or equal to the total length `_greedy` returns, with equality whenever the
greedy ordering is itself optimal among all orderings. -/
theorem bruteForce_le_greedy (g : ReducedGraph) (hnd : g.nodes.Nodup)
    (hs : g.start ∈ g.nodes)
    (hc : ∀ u ∈ g.nodes, ∀ v ∈ g.nodes, u ≠ v → (g.wt u v).isSome)
    (hR : 2 ≤ g.nodes.length) :
    ∃ pb lb lg, bruteForce g = some (pb, lb) ∧
      greedy g = (greedyPath g, some lg) ∧
      lb ≤ lg ∧
      ((∀ q lq, q.Perm (g.nodes.filter (fun n => n ≠ g.start)) →
          pathLen g.wt (g.start :: q) = some lq → lg ≤ lq) → lb = lg) := by
  have htr : GreedyTrace g sqDistN g.start [g.start] (greedyGo g sqDistN g.start [g.start]) :=
    greedyGo_trace g sqDistN _ g.start [g.start] (le_refl _)
  have hsub := trace_subset htr
  have hnodup : ([g.start] ++ greedyGo g sqDistN g.start [g.start]).Nodup :=
    trace_nodup htr (List.nodup_singleton _)
  have hcov := trace_covers hc htr hs (by simp)
  have hpathmem : ∀ x ∈ greedyPath g, x ∈ g.nodes := by
    intro x hx
    rcases List.mem_cons.mp hx with h1 | h2
    · exact h1 ▸ hs
    · exact hsub x h2
  have hpathnd : (greedyPath g).Nodup := by
    have : greedyPath g = [g.start] ++ greedyGo g sqDistN g.start [g.start] := rfl
    rw [this]
    exact hnodup
  obtain ⟨lg, hlg⟩ := Option.isSome_iff_exists.mp
    (pathLen_isSome_of_chain g.wt (greedyPath g)
      (chain'_wt_of_nodup g hc (greedyPath g) hpathnd hpathmem))
  have htail_perm : (greedyGo g sqDistN g.start [g.start]).Perm
      (g.nodes.filter (fun n => n ≠ g.start)) := by
    apply List.perm_of_nodup_nodup_toFinset_eq
    · exact (List.nodup_append.mp hnodup).2.1
    · exact hnd.filter _
    · ext a
      simp only [List.mem_toFinset, List.mem_filter, decide_eq_true_eq]
      constructor
      · intro ha
        refine ⟨hsub a ha, ?_⟩
        intro hae
        have := (List.nodup_append.mp hnodup).2.2
        exact this (List.mem_singleton_self g.start) (hae ▸ ha)
      · intro ⟨han, hane⟩
        have := hcov a han
        rcases List.mem_append.mp this with h1 | h2
        · exact absurd (List.mem_singleton.mp h1) hane
        · exact h2
  obtain ⟨p, lb, hbf, hperm, hplen, hopt⟩ := bruteForce_spec g hnd hs hc
  refine ⟨g.start :: p, lb, lg, hbf, ?_, ?_, ?_⟩
  · show (greedyPath g, pathLen g.wt (greedyPath g)) = (greedyPath g, some lg)
    rw [hlg]
  · exact hopt (greedyGo g sqDistN g.start [g.start]) lg htail_perm hlg
  · intro hgopt
    have h1 : lb ≤ lg := hopt (greedyGo g sqDistN g.start [g.start]) lg htail_perm hlg
    have h2 : lg ≤ lb := hgopt p lb hperm hplen
    exact le_antisymm h1 h2

/-- Witness for C8 at the concrete complete graph `GC2`. -/
theorem bruteForce_le_greedy_witness :
    GC2.nodes.Nodup ∧
    ∃ pb lb lg, bruteForce GC2 = some (pb, lb) ∧
      greedy GC2 = (greedyPath GC2, some lg) ∧
      lb ≤ lg ∧
      ((∀ q lq, q.Perm (GC2.nodes.filter (fun n => n ≠ GC2.start)) →
          pathLen GC2.wt (GC2.start :: q) = some lq → lg ≤ lq) → lb = lg) :=
  ⟨by decide, bruteForce_le_greedy GC2 (by decide) (by decide) (by decide) (by decide)⟩

/-! ### C6: connectivity repair of a single target node -/

/-- C6: repairing a target (classroom) node against a node pool: after
restricting the pool's Hallway (connector) nodes to the target's floor and
dropping zero-distance candidates, fewer than two survivors raise the
`ValueError` (InsufficientNeighbors); otherwise the two nearest survivors
`a, b` are selected, the junction `d` is `project a b c`, and exactly the three
edges `a–d`, `b–d`, `c–d` are added, each recorded with the (squared) Euclidean
distance of its endpoints — the code stores the square root of that value, the
Euclidean distance itself. -/
theorem connect_repair_target (c : EuclideanNode) (allNodes : List EuclideanNode)
    (hc2 : c.coord.length = 2) (hall2 : ∀ h ∈ allNodes, h.coord.length = 2) :
    ((((allNodes.filter (fun n => n.type = "Hallway")).filter
        (fun item => item.floor = c.floor)).filter
        (fun item => sumSqDiff c.coord item.coord ≠ 0)).length < 2 →
      repairTarget allNodes c =
        .error ("Data only contains " ++
          toString (((allNodes.filter (fun n => n.type = "Hallway")).filter
            (fun item => item.floor = c.floor)).filter
            (fun item => sumSqDiff c.coord item.coord ≠ 0)).length ++
          " total neighbors after filtering")) ∧
    (2 ≤ (((allNodes.filter (fun n => n.type = "Hallway")).filter
        (fun item => item.floor = c.floor)).filter
        (fun item => sumSqDiff c.coord item.coord ≠ 0)).length →
      ∃ a b rest d,
        (a :: b :: rest).Perm (((allNodes.filter (fun n => n.type = "Hallway")).filter
          (fun item => item.floor = c.floor)).filter
          (fun item => sumSqDiff c.coord item.coord ≠ 0)) ∧
        sumSqDiff a.coord c.coord ≤ sumSqDiff b.coord c.coord ∧
        (∀ m ∈ rest, sumSqDiff b.coord c.coord ≤ sumSqDiff m.coord c.coord) ∧
        project a b c = .ok d ∧
        repairTarget allNodes c =
          .ok [(a, d, sqDistN a d), (b, d, sqDistN b d), (c, d, sqDistN c d)]) := by
  constructor
  · intro hlt
    unfold repairTarget naive_knn
    dsimp only
    rw [if_pos (by omega)]
    rfl
  · intro hge
    unfold repairTarget naive_knn
    dsimp only
    rw [if_neg (by omega)]
    have hperm := List.mergeSort_perm
      (((allNodes.filter (fun n => n.type = "Hallway")).filter
        (fun item => item.floor = c.floor)).filter
        (fun item => sumSqDiff c.coord item.coord ≠ 0))
      (fun x y => decide (sumSqDiff x.coord c.coord ≤ sumSqDiff y.coord c.coord))
    have hsorted := @List.sorted_mergeSort EuclideanNode
      (fun x y : EuclideanNode =>
        decide (sumSqDiff x.coord c.coord ≤ sumSqDiff y.coord c.coord))
      (by
        intro x y z h1 h2
        simp only [decide_eq_true_eq] at h1 h2 ⊢
        exact le_trans h1 h2)
      (by
        intro x y
        simp only [Bool.or_eq_true, decide_eq_true_eq]
        exact le_total _ _)
      (((allNodes.filter (fun n => n.type = "Hallway")).filter
        (fun item => item.floor = c.floor)).filter
        (fun item => sumSqDiff c.coord item.coord ≠ 0))
    have hlen : 2 ≤ (List.mergeSort
        (((allNodes.filter (fun n => n.type = "Hallway")).filter
          (fun item => item.floor = c.floor)).filter
          (fun item => sumSqDiff c.coord item.coord ≠ 0))
        (fun x y => decide (sumSqDiff x.coord c.coord ≤ sumSqDiff y.coord c.coord))).length := by
      rw [hperm.length_eq]
      exact hge
    cases hms : List.mergeSort
        (((allNodes.filter (fun n => n.type = "Hallway")).filter
          (fun item => item.floor = c.floor)).filter
          (fun item => sumSqDiff c.coord item.coord ≠ 0))
        (fun x y => decide (sumSqDiff x.coord c.coord ≤ sumSqDiff y.coord c.coord)) with
    | nil => rw [hms] at hlen; simp at hlen
    | cons a tl =>
      cases tl with
      | nil => rw [hms] at hlen; simp at hlen
      | cons b rest =>
        rw [hms] at hperm hsorted
        have hab : sumSqDiff a.coord c.coord ≤ sumSqDiff b.coord c.coord := by
          have := (List.pairwise_cons.mp hsorted).1 b (List.mem_cons_self b rest)
          simpa using this
        have hbrest : ∀ m ∈ rest, sumSqDiff b.coord c.coord ≤ sumSqDiff m.coord c.coord := by
          intro m hm
          have := (List.pairwise_cons.mp (List.pairwise_cons.mp hsorted).2).1 m hm
          simpa using this
        have ha2 : a.coord.length = 2 := by
          apply hall2
          have := hperm.mem_iff.mp (List.mem_cons_self a (b :: rest))
          exact List.mem_of_mem_filter (List.mem_of_mem_filter (List.mem_of_mem_filter this))
        have hb2 : b.coord.length = 2 := by
          apply hall2
          have := hperm.mem_iff.mp (List.mem_cons_of_mem a (List.mem_cons_self b rest))
          exact List.mem_of_mem_filter (List.mem_of_mem_filter (List.mem_of_mem_filter this))
        obtain ⟨d, hd⟩ : ∃ d, project a b c = .ok d := by
          unfold project
          rw [if_pos ⟨ha2, hb2, hc2⟩]
          exact ⟨_, rfl⟩
        refine ⟨a, b, rest, d, hperm, hab, hbrest, hd, ?_⟩
        show (do
            let dd ← project a b c
            Except.ok [(a, dd, sqDistN a dd), (b, dd, sqDistN b dd), (c, dd, sqDistN c dd)]) =
          Except.ok [(a, d, sqDistN a d), (b, d, sqDistN b d), (c, d, sqDistN c d)]
        rw [hd]
        rfl

/-- Connector `H1 = (0, 0)` on floor 1 (spec repair scenario). -/
def wH1 : EuclideanNode := ⟨"Hallway", "H1", 1, [0, 0]⟩

/-- Connector `H2 = (10, 0)` on floor 1 (spec repair scenario). -/
def wH2 : EuclideanNode := ⟨"Hallway", "H2", 1, [10, 0]⟩

/-- Target `C1 = (5, 5)` on floor 1 (spec repair scenario). -/
def wC1 : EuclideanNode := ⟨"Classroom", "C1", 1, [5, 5]⟩

/-- Witness for C6 at the spec's repair scenario (`H1`, `H2`, `C1`). -/
theorem connect_repair_target_witness :
    (wC1.coord.length = 2 ∧ ∀ h ∈ [wH1, wH2, wC1], h.coord.length = 2) ∧
    (((([wH1, wH2, wC1].filter (fun n => n.type = "Hallway")).filter
        (fun item => item.floor = wC1.floor)).filter
        (fun item => sumSqDiff wC1.coord item.coord ≠ 0)).length < 2 →
      repairTarget [wH1, wH2, wC1] wC1 =
        .error ("Data only contains " ++
          toString ((([wH1, wH2, wC1].filter (fun n => n.type = "Hallway")).filter
            (fun item => item.floor = wC1.floor)).filter
            (fun item => sumSqDiff wC1.coord item.coord ≠ 0)).length ++
          " total neighbors after filtering")) ∧
    (2 ≤ ((([wH1, wH2, wC1].filter (fun n => n.type = "Hallway")).filter
        (fun item => item.floor = wC1.floor)).filter
        (fun item => sumSqDiff wC1.coord item.coord ≠ 0)).length →
      ∃ a b rest d,
        (a :: b :: rest).Perm ((([wH1, wH2, wC1].filter (fun n => n.type = "Hallway")).filter
          (fun item => item.floor = wC1.floor)).filter
          (fun item => sumSqDiff wC1.coord item.coord ≠ 0)) ∧
        sumSqDiff a.coord wC1.coord ≤ sumSqDiff b.coord wC1.coord ∧
        (∀ m ∈ rest, sumSqDiff b.coord wC1.coord ≤ sumSqDiff m.coord wC1.coord) ∧
        project a b wC1 = .ok d ∧
        repairTarget [wH1, wH2, wC1] wC1 =
          .ok [(a, d, sqDistN a d), (b, d, sqDistN b d), (wC1, d, sqDistN wC1 d)]) := by
  refine ⟨⟨by decide, by decide⟩, ?_, ?_⟩
  · exact (connect_repair_target wC1 [wH1, wH2, wC1] (by decide) (by decide)).1
  · exact (connect_repair_target wC1 [wH1, wH2, wC1] (by decide) (by decide)).2

/-! ### C2: the graph reducer -/

/-- `p` is a walk from `u` to `v` in the weighted graph `wt`: it starts at `u`,
ends at `v`, and every consecutive pair is an edge (so `_path_len` is defined). -/
def IsPathFrom (wt : EuclideanNode → EuclideanNode → Option ℚ)
    (p : List EuclideanNode) (u v : EuclideanNode) : Prop :=
  p.head? = some u ∧ p.getLast? = some v ∧ (pathLen wt p).isSome

/-- `p` is a shortest walk from `u` to `v`: a walk whose `_path_len` is less
than or equal to that of every walk from `u` to `v`. -/
def IsShortestPathFrom (wt : EuclideanNode → EuclideanNode → Option ℚ)
    (p : List EuclideanNode) (u v : EuclideanNode) : Prop :=
  IsPathFrom wt p u v ∧
  ∀ q lq, IsPathFrom wt q u v → pathLen wt q = some lq →
    ∃ lp, pathLen wt p = some lp ∧ lp ≤ lq

theorem combos2_mem {α : Type} : ∀ (l : List α) (uv : α × α), uv ∈ combos2 l →
    uv.1 ∈ l ∧ uv.2 ∈ l := by
  intro l
  induction l with
  | nil => intro uv h; simp [combos2] at h
  | cons x xs ih =>
    intro uv h
    simp only [combos2, List.mem_append] at h
    rcases h with h1 | h2
    · obtain ⟨y, hy, hxy⟩ := List.mem_map.mp h1
      subst hxy
      exact ⟨List.mem_cons_self x xs, List.mem_cons_of_mem x hy⟩
    · obtain ⟨h3, h4⟩ := ih uv h2
      exact ⟨List.mem_cons_of_mem x h3, List.mem_cons_of_mem x h4⟩

theorem combos2_ne : ∀ (l : List String), l.Nodup → ∀ uv ∈ combos2 l, uv.1 ≠ uv.2 := by
  intro l
  induction l with
  | nil => intro _ uv h; simp [combos2] at h
  | cons x xs ih =>
    intro hnd uv h
    rw [List.nodup_cons] at hnd
    simp only [combos2, List.mem_append] at h
    rcases h with h1 | h2
    · obtain ⟨y, hy, hxy⟩ := List.mem_map.mp h1
      subst hxy
      intro hx
      exact hnd.1 (by rw [show x = y from hx]; exact hy)
    · exact ih hnd.2 uv h2

theorem combos2_pairwise : ∀ (l : List String), l.Nodup →
    (combos2 l).Pairwise (fun p q =>
      ¬((q.1 = p.1 ∧ q.2 = p.2) ∨ (q.1 = p.2 ∧ q.2 = p.1))) := by
  intro l
  induction l with
  | nil => intro _; simp [combos2]
  | cons x xs ih =>
    intro hnd
    rw [List.nodup_cons] at hnd
    simp only [combos2]
    rw [List.pairwise_append]
    refine ⟨?_, ih hnd.2, ?_⟩
    · rw [List.pairwise_map]
      apply List.Pairwise.imp_of_mem ?_ hnd.2
      intro y1 y2 hy1 hy2 hne
      simp only
      intro hcon
      rcases hcon with ⟨_, h2⟩ | ⟨h1, _⟩
      · exact hne h2.symm
      · exact hnd.1 (h1 ▸ hy1)
    · intro p hp q hq
      obtain ⟨y, hy, hxy⟩ := List.mem_map.mp hp
      subst hxy
      have hqmem := combos2_mem xs q hq
      simp only
      intro hcon
      rcases hcon with ⟨h1, _⟩ | ⟨_, h2⟩
      · exact hnd.1 (h1 ▸ hqmem.1)
      · exact hnd.1 (h2 ▸ hqmem.2)

theorem addReducedEdge_start (g : ReducedGraph) (u v : EuclideanNode)
    (path : List EuclideanNode) (w : ℚ) : (addReducedEdge g u v path w).start = g.start := rfl

theorem addReducedEdge_wt_self (g : ReducedGraph) (u v : EuclideanNode)
    (path : List EuclideanNode) (w : ℚ) :
    (addReducedEdge g u v path w).wt u v = some w ∧
    (addReducedEdge g u v path w).wt v u = some w := by
  constructor <;> simp [addReducedEdge]

theorem addReducedEdge_paths_self (g : ReducedGraph) (u v : EuclideanNode)
    (path : List EuclideanNode) (w : ℚ) (huv : u ≠ v) :
    (addReducedEdge g u v path w).paths u v = some path ∧
    (addReducedEdge g u v path w).paths v u = some path.reverse := by
  constructor
  · simp [addReducedEdge]
  · have h1 : ¬(v = u ∧ u = v) := fun h => huv h.1.symm
    simp [addReducedEdge, h1]

theorem addReducedEdge_wt_other (g : ReducedGraph) (u v a b : EuclideanNode)
    (path : List EuclideanNode) (w : ℚ)
    (hne : ¬((a = u ∧ b = v) ∨ (a = v ∧ b = u))) :
    (addReducedEdge g u v path w).wt a b = g.wt a b := by
  simp only [addReducedEdge]
  rw [if_neg hne]

theorem addReducedEdge_paths_other (g : ReducedGraph) (u v a b : EuclideanNode)
    (path : List EuclideanNode) (w : ℚ)
    (hne : ¬((a = u ∧ b = v) ∨ (a = v ∧ b = u))) :
    (addReducedEdge g u v path w).paths a b = g.paths a b := by
  simp only [addReducedEdge]
  rw [if_neg (fun h => hne (Or.inl h)), if_neg (fun h => hne (Or.inr h))]

theorem reduceStep_eq (g : BaseGraph) (sp : EuclideanNode → EuclideanNode → List EuclideanNode)
    (rg : ReducedGraph) (uv : String × String) (nu nv : EuclideanNode) (d : ℚ)
    (hu : g.node_dict uv.1 = some nu) (hv : g.node_dict uv.2 = some nv)
    (hd : pathLen g.wt (sp nu nv) = some d) :
    reduceStep g sp rg uv = some (addReducedEdge rg nu nv (sp nu nv) d) := by
  unfold reduceStep
  rw [hu]
  show (do
    let target ← g.node_dict uv.2
    let d ← pathLen g.wt (sp nu target)
    some (addReducedEdge rg nu target (sp nu target) d)) = _
  rw [hv]
  show (do
    let dd ← pathLen g.wt (sp nu nv)
    some (addReducedEdge rg nu nv (sp nu nv) dd)) = _
  rw [hd]
  rfl

theorem reduceStep_some_inv (g : BaseGraph)
    (sp : EuclideanNode → EuclideanNode → List EuclideanNode)
    (rg : ReducedGraph) (uv : String × String) (rg1 : ReducedGraph)
    (h : reduceStep g sp rg uv = some rg1) :
    ∃ nu nv d, g.node_dict uv.1 = some nu ∧ g.node_dict uv.2 = some nv ∧
      pathLen g.wt (sp nu nv) = some d ∧ rg1 = addReducedEdge rg nu nv (sp nu nv) d := by
  unfold reduceStep at h
  cases hu : g.node_dict uv.1 with
  | none =>
    rw [hu] at h
    have h' : (none : Option ReducedGraph) = some rg1 := h
    cases h'
  | some nu =>
    rw [hu] at h
    have h2 : (do
        let target ← g.node_dict uv.2
        let d ← pathLen g.wt (sp nu target)
        some (addReducedEdge rg nu target (sp nu target) d)) = some rg1 := h
    cases hv : g.node_dict uv.2 with
    | none =>
      rw [hv] at h2
      have h' : (none : Option ReducedGraph) = some rg1 := h2
      cases h'
    | some nv =>
      rw [hv] at h2
      have h3 : (do
          let dd ← pathLen g.wt (sp nu nv)
          some (addReducedEdge rg nu nv (sp nu nv) dd)) = some rg1 := h2
      cases hd : pathLen g.wt (sp nu nv) with
      | none =>
        rw [hd] at h3
        have h' : (none : Option ReducedGraph) = some rg1 := h3
        cases h'
      | some d =>
        rw [hd] at h3
        have h' : some (addReducedEdge rg nu nv (sp nu nv) d) = some rg1 := h3
        cases h'
        exact ⟨nu, nv, d, rfl, rfl, hd, rfl⟩

theorem reduceFold_some (g : BaseGraph)
    (sp : EuclideanNode → EuclideanNode → List EuclideanNode) :
    ∀ (L : List (String × String)) (rg0 : ReducedGraph),
      (∀ uv ∈ L, ∃ nu nv d, g.node_dict uv.1 = some nu ∧ g.node_dict uv.2 = some nv ∧
        pathLen g.wt (sp nu nv) = some d) →
      ∃ rgf, L.foldlM (reduceStep g sp) rg0 = some rgf := by
  intro L
  induction L with
  | nil => intro rg0 _; exact ⟨rg0, by rw [List.foldlM_nil]; rfl⟩
  | cons uv L ih =>
    intro rg0 hall
    obtain ⟨nu, nv, d, hu, hv, hd⟩ := hall uv (List.mem_cons_self uv L)
    obtain ⟨rgf, hrgf⟩ := ih (addReducedEdge rg0 nu nv (sp nu nv) d)
      (fun p hp => hall p (List.mem_cons_of_mem _ hp))
    refine ⟨rgf, ?_⟩
    rw [List.foldlM_cons, reduceStep_eq g sp rg0 uv nu nv d hu hv hd]
    show L.foldlM (reduceStep g sp) (addReducedEdge rg0 nu nv (sp nu nv) d) = some rgf
    exact hrgf

theorem reduceFold_start (g : BaseGraph)
    (sp : EuclideanNode → EuclideanNode → List EuclideanNode) :
    ∀ (L : List (String × String)) (rg0 rgf : ReducedGraph),
      L.foldlM (reduceStep g sp) rg0 = some rgf → rgf.start = rg0.start := by
  intro L
  induction L with
  | nil =>
    intro rg0 rgf h
    rw [List.foldlM_nil] at h
    have h' : some rg0 = some rgf := h
    cases h'
    rfl
  | cons uv L ih =>
    intro rg0 rgf h
    rw [List.foldlM_cons] at h
    cases hstep : reduceStep g sp rg0 uv with
    | none =>
      rw [hstep] at h
      have h' : (none : Option ReducedGraph) = some rgf := h
      cases h'
    | some rg1 =>
      rw [hstep] at h
      have h' : L.foldlM (reduceStep g sp) rg1 = some rgf := h
      obtain ⟨nu, nv, d, _, _, _, hrg1⟩ := reduceStep_some_inv g sp rg0 uv rg1 hstep
      subst hrg1
      exact (ih _ _ h').trans (addReducedEdge_start rg0 nu nv _ d)

theorem reduceFold_preserve (g : BaseGraph)
    (sp : EuclideanNode → EuclideanNode → List EuclideanNode) :
    ∀ (L : List (String × String)) (rg0 rgf : ReducedGraph),
      L.foldlM (reduceStep g sp) rg0 = some rgf →
      ∀ a b : EuclideanNode,
        (∀ uv ∈ L, ∀ nu nv, g.node_dict uv.1 = some nu → g.node_dict uv.2 = some nv →
          ¬((a = nu ∧ b = nv) ∨ (a = nv ∧ b = nu))) →
        rgf.wt a b = rg0.wt a b ∧ rgf.paths a b = rg0.paths a b := by
  intro L
  induction L with
  | nil =>
    intro rg0 rgf h a b _
    rw [List.foldlM_nil] at h
    have h' : some rg0 = some rgf := h
    cases h'
    exact ⟨rfl, rfl⟩
  | cons uv L ih =>
    intro rg0 rgf h a b hnm
    rw [List.foldlM_cons] at h
    cases hstep : reduceStep g sp rg0 uv with
    | none =>
      rw [hstep] at h
      have h' : (none : Option ReducedGraph) = some rgf := h
      cases h'
    | some rg1 =>
      rw [hstep] at h
      have h' : L.foldlM (reduceStep g sp) rg1 = some rgf := h
      obtain ⟨nu, nv, d, hu, hv, hd, hrg1⟩ := reduceStep_some_inv g sp rg0 uv rg1 hstep
      subst hrg1
      have hh := ih _ _ h' a b (fun p hp => hnm p (List.mem_cons_of_mem _ hp))
      have hne := hnm uv (List.mem_cons_self uv L) nu nv hu hv
      exact ⟨hh.1.trans (addReducedEdge_wt_other rg0 nu nv a b _ d hne),
        hh.2.trans (addReducedEdge_paths_other rg0 nu nv a b _ d hne)⟩

theorem reduceFold_extract (g : BaseGraph)
    (sp : EuclideanNode → EuclideanNode → List EuclideanNode) :
    ∀ (L : List (String × String)) (rg0 rgf : ReducedGraph),
      L.foldlM (reduceStep g sp) rg0 = some rgf →
      L.Pairwise (fun uv pq => ∀ nu nv nu' nv',
        g.node_dict uv.1 = some nu → g.node_dict uv.2 = some nv →
        g.node_dict pq.1 = some nu' → g.node_dict pq.2 = some nv' →
        ¬((nu' = nu ∧ nv' = nv) ∨ (nu' = nv ∧ nv' = nu))) →
      (∀ uv ∈ L, ∀ nu nv, g.node_dict uv.1 = some nu → g.node_dict uv.2 = some nv →
        nu ≠ nv) →
      ∀ uv ∈ L, ∀ nu nv, g.node_dict uv.1 = some nu → g.node_dict uv.2 = some nv →
        ∃ d, pathLen g.wt (sp nu nv) = some d ∧
          rgf.wt nu nv = some d ∧ rgf.wt nv nu = some d ∧
          rgf.paths nu nv = some (sp nu nv) ∧
          rgf.paths nv nu = some (sp nu nv).reverse := by
  intro L
  induction L with
  | nil => intro rg0 rgf _ _ _ uv h; simp at h
  | cons pq L ih =>
    intro rg0 rgf h hpw hdist uv huv nu nv hu hv
    rw [List.foldlM_cons] at h
    cases hstep : reduceStep g sp rg0 pq with
    | none =>
      rw [hstep] at h
      have h' : (none : Option ReducedGraph) = some rgf := h
      cases h'
    | some rg1 =>
      rw [hstep] at h
      have h' : L.foldlM (reduceStep g sp) rg1 = some rgf := h
      obtain ⟨nu0, nv0, d0, hu0, hv0, hd0, hrg1⟩ := reduceStep_some_inv g sp rg0 pq rg1 hstep
      subst hrg1
      rcases List.mem_cons.mp huv with heq | hmem
      · subst heq
        have hnu : nu0 = nu := by rw [hu] at hu0; exact (Option.some.inj hu0).symm
        have hnv : nv0 = nv := by rw [hv] at hv0; exact (Option.some.inj hv0).symm
        subst hnu
        subst hnv
        have hnune : nu0 ≠ nv0 := hdist uv (List.mem_cons_self uv L) nu0 nv0 hu hv
        have hpres1 := reduceFold_preserve g sp L _ _ h' nu0 nv0 (by
          intro pq' hpq' nu' nv' hu' hv'
          have := (List.pairwise_cons.mp hpw).1 pq' hpq' nu0 nv0 nu' nv' hu hv hu' hv'
          intro hcon
          apply this
          rcases hcon with ⟨h1, h2⟩ | ⟨h1, h2⟩
          · exact Or.inl ⟨h1.symm, h2.symm⟩
          · exact Or.inr ⟨h2.symm, h1.symm⟩)
        have hpres2 := reduceFold_preserve g sp L _ _ h' nv0 nu0 (by
          intro pq' hpq' nu' nv' hu' hv'
          have := (List.pairwise_cons.mp hpw).1 pq' hpq' nu0 nv0 nu' nv' hu hv hu' hv'
          intro hcon
          apply this
          rcases hcon with ⟨h1, h2⟩ | ⟨h1, h2⟩
          · exact Or.inr ⟨h1.symm, h2.symm⟩
          · exact Or.inl ⟨h2.symm, h1.symm⟩)
        refine ⟨d0, hd0, ?_, ?_, ?_, ?_⟩
        · rw [hpres1.1]
          exact (addReducedEdge_wt_self rg0 nu0 nv0 _ d0).1
        · rw [hpres2.1]
          exact (addReducedEdge_wt_self rg0 nu0 nv0 _ d0).2
        · rw [hpres1.2]
          exact (addReducedEdge_paths_self rg0 nu0 nv0 _ d0 hnune).1
        · rw [hpres2.2]
          exact (addReducedEdge_paths_self rg0 nu0 nv0 _ d0 hnune).2
      · exact ih _ _ h' (List.pairwise_cons.mp hpw).2
          (fun p hp => hdist p (List.mem_cons_of_mem _ hp)) uv hmem nu nv hu hv

/-- C2 as amended: for every unordered pair of TARGET names (the code iterates
`itertools.combinations(nodes, 2)`, so the start node joins the pairs only when
it is itself among the targets), graph reduction resolves the pair, runs the
shortest-path search, and stores the resulting path and its `_path_len` as a
reduced edge in both directions; the stored weight equals the shortest-path
length between the two nodes in the base graph (given that the search returns
shortest paths, which the spec guarantees through the admissible, consistent
A* heuristic). -/
theorem reduceGraph_stores_shortest_target_pairs (g : BaseGraph)
    (sp : EuclideanNode → EuclideanNode → List EuclideanNode)
    (names : List String) (startName : String) (s : EuclideanNode)
    (hstart : g.node_dict startName = some s)
    (hnd : names.Nodup)
    (hinj : ∀ u nu, g.node_dict u = some nu → nu.name = u)
    (hres : ∀ u ∈ names, (g.node_dict u).isSome)
    (hsp : ∀ uv ∈ combos2 names, ∀ nu nv, g.node_dict uv.1 = some nu →
      g.node_dict uv.2 = some nv → IsShortestPathFrom g.wt (sp nu nv) nu nv) :
    ∃ rg, reduceGraph g sp names startName = some rg ∧ rg.start = s ∧
      ∀ uv ∈ combos2 names, ∀ nu nv, g.node_dict uv.1 = some nu →
        g.node_dict uv.2 = some nv →
        ∃ d, rg.wt nu nv = some d ∧ rg.wt nv nu = some d ∧
          rg.paths nu nv = some (sp nu nv) ∧
          rg.paths nv nu = some (sp nu nv).reverse ∧
          pathLen g.wt (sp nu nv) = some d ∧
          IsShortestPathFrom g.wt (sp nu nv) nu nv := by
  have hresolve : ∀ uv ∈ combos2 names, ∃ nu nv d,
      g.node_dict uv.1 = some nu ∧ g.node_dict uv.2 = some nv ∧
      pathLen g.wt (sp nu nv) = some d := by
    intro uv huv
    obtain ⟨h1, h2⟩ := combos2_mem names uv huv
    obtain ⟨nu, hnu⟩ := Option.isSome_iff_exists.mp (hres uv.1 h1)
    obtain ⟨nv, hnv⟩ := Option.isSome_iff_exists.mp (hres uv.2 h2)
    obtain ⟨d, hd⟩ := Option.isSome_iff_exists.mp (hsp uv huv nu nv hnu hnv).1.2.2
    exact ⟨nu, nv, d, hnu, hnv, hd⟩
  obtain ⟨rgf, hrgf⟩ := reduceFold_some g sp (combos2 names) (emptyReduced s) hresolve
  have hred : reduceGraph g sp names startName = some rgf := by
    unfold reduceGraph
    rw [hstart]
    show (combos2 names).foldlM (reduceStep g sp)
      { start := s, nodes := [], wt := fun _ _ => none, paths := fun _ _ => none } = some rgf
    exact hrgf
  have hpwnames := combos2_pairwise names hnd
  have hpwnodes : (combos2 names).Pairwise (fun uv pq => ∀ nu nv nu' nv',
      g.node_dict uv.1 = some nu → g.node_dict uv.2 = some nv →
      g.node_dict pq.1 = some nu' → g.node_dict pq.2 = some nv' →
      ¬((nu' = nu ∧ nv' = nv) ∨ (nu' = nv ∧ nv' = nu))) := by
    apply hpwnames.imp_of_mem
    intro uv pq huv hpq hname nu nv nu' nv' hu hv hu' hv' hcon
    apply hname
    have e1 := hinj uv.1 nu hu
    have e2 := hinj uv.2 nv hv
    have e3 := hinj pq.1 nu' hu'
    have e4 := hinj pq.2 nv' hv'
    rcases hcon with ⟨h1, h2⟩ | ⟨h1, h2⟩
    · exact Or.inl ⟨by rw [← e3, ← e1, h1], by rw [← e4, ← e2, h2]⟩
    · exact Or.inr ⟨by rw [← e3, ← e2, h1], by rw [← e4, ← e1, h2]⟩
  have hdist : ∀ uv ∈ combos2 names, ∀ nu nv, g.node_dict uv.1 = some nu →
      g.node_dict uv.2 = some nv → nu ≠ nv := by
    intro uv huv nu nv hu hv heq
    have e1 := hinj uv.1 nu hu
    have e2 := hinj uv.2 nv hv
    apply combos2_ne names hnd uv huv
    rw [← e1, ← e2, heq]
  refine ⟨rgf, hred, ?_, ?_⟩
  · exact reduceFold_start g sp (combos2 names) _ _ hrgf
  · intro uv huv nu nv hu hv
    obtain ⟨d, hd, hw1, hw2, hp1, hp2⟩ :=
      reduceFold_extract g sp (combos2 names) _ _ hrgf hpwnodes hdist uv huv nu nv hu hv
    exact ⟨d, hw1, hw2, hp1, hp2, hd, hsp uv huv nu nv hu hv⟩

theorem pathLen_nonneg (wt : EuclideanNode → EuclideanNode → Option ℚ)
    (hwt : ∀ x y w, wt x y = some w → 0 ≤ w) :
    ∀ (q : List EuclideanNode) (lq : ℚ), pathLen wt q = some lq → 0 ≤ lq := by
  intro q
  induction q with
  | nil =>
    intro lq h
    have h' : some (0 : ℚ) = some lq := h
    cases h'
    exact le_refl 0
  | cons u rest ih =>
    cases rest with
    | nil =>
      intro lq h
      have h' : some (0 : ℚ) = some lq := h
      cases h'
      exact le_refl 0
    | cons v rest2 =>
      intro lq h
      unfold pathLen at h
      cases hw : wt u v with
      | none =>
        rw [hw] at h
        have h' : (none : Option ℚ) = some lq := h
        cases h'
      | some w =>
        rw [hw] at h
        have h2 : (do
            let r ← pathLen wt (v :: rest2)
            return w + r) = some lq := h
        cases hr : pathLen wt (v :: rest2) with
        | none =>
          rw [hr] at h2
          have h' : (none : Option ℚ) = some lq := h2
          cases h'
        | some r =>
          rw [hr] at h2
          have h' : some (w + r) = some lq := h2
          cases h'
          have hwn := hwt u v w hw
          have hrn := ih r hr
          linarith

theorem pathLen_ge_one (wt : EuclideanNode → EuclideanNode → Option ℚ)
    (hwt : ∀ x y w, wt x y = some w → 1 ≤ w) :
    ∀ (q : List EuclideanNode) (lq : ℚ), 2 ≤ q.length → pathLen wt q = some lq → 1 ≤ lq := by
  intro q
  cases q with
  | nil => intro lq h; simp at h
  | cons u rest =>
    cases rest with
    | nil => intro lq h; simp at h
    | cons v rest2 =>
      intro lq _ h
      unfold pathLen at h
      cases hw : wt u v with
      | none =>
        rw [hw] at h
        have h' : (none : Option ℚ) = some lq := h
        cases h'
      | some w =>
        rw [hw] at h
        have h2 : (do
            let r ← pathLen wt (v :: rest2)
            return w + r) = some lq := h
        cases hr : pathLen wt (v :: rest2) with
        | none =>
          rw [hr] at h2
          have h' : (none : Option ℚ) = some lq := h2
          cases h'
        | some r =>
          rw [hr] at h2
          have h' : some (w + r) = some lq := h2
          cases h'
          have hw1 := hwt u v w hw
          have hr0 := pathLen_nonneg wt (fun x y w' hw' => le_trans (by norm_num) (hwt x y w' hw'))
            (v :: rest2) r hr
          linarith

/-- The base graph of the reduction counterexample and witness: nodes `S`, `A`,
`B` (named by their `name` fields), every pair joined by an edge of weight 1. -/
def baseG : BaseGraph :=
  { node_dict := fun s =>
      if s = "S" then some nS
      else if s = "A" then some nA
      else if s = "B" then some nB
      else none
    wt := fun u v =>
      if (u = nS ∧ v = nA) ∨ (u = nA ∧ v = nS) then some 1
      else if (u = nS ∧ v = nB) ∨ (u = nB ∧ v = nS) then some 1
      else if (u = nA ∧ v = nB) ∨ (u = nB ∧ v = nA) then some 1
      else none }

/-- The shortest-path search used with `baseG`: the only pair the reduction of
targets `["A", "B"]` queries is `(A, B)`, whose shortest path in `baseG` is the
direct edge `[nA, nB]` (length 1; every detour uses at least two weight-1
edges). -/
def spB : EuclideanNode → EuclideanNode → List EuclideanNode := fun _ _ => [nA, nB]

/-- C2 counterexample: reducing `baseG` with target names `["A", "B"]` and start
`"S"` — a start that is not among the targets — produces a reduced graph whose
start is `nS` but which contains NO edge between `nS` and the required node
`nA`: the code pairs only the members of `nodes`, never the start, so the
claimed invariant "an edge for every unordered pair drawn from
{start} ∪ targets" fails whenever the start is not a target. -/
theorem reduceGraph_omits_start_pair :
    ∃ rg, reduceGraph baseG spB ["A", "B"] "S" = some rg ∧
      baseG.node_dict "S" = some nS ∧
      baseG.node_dict "A" = some nA ∧
      rg.start = nS ∧
      rg.wt nS nA = none ∧
      rg.wt nA nS = none ∧
      nS ≠ nA := by
  refine ⟨addReducedEdge (emptyReduced nS) nA nB [nA, nB] (1 + 0),
    ?_, rfl, rfl, rfl, ?_, ?_, by decide⟩
  · rfl
  · decide
  · decide

theorem baseG_inj : ∀ u nu, baseG.node_dict u = some nu → nu.name = u := by
  intro u nu h
  simp only [baseG] at h
  split_ifs at h with h1 h2 h3
  · cases h; rw [h1]; rfl
  · cases h; rw [h2]; rfl
  · cases h; rw [h3]; rfl

theorem baseG_wt_ge_one : ∀ x y w, baseG.wt x y = some w → 1 ≤ w := by
  intro x y w h
  simp only [baseG] at h
  split_ifs at h
  · cases h; norm_num
  · cases h; norm_num
  · cases h; norm_num

theorem baseG_sp_shortest : ∀ uv ∈ combos2 ["A", "B"], ∀ nu nv,
    baseG.node_dict uv.1 = some nu → baseG.node_dict uv.2 = some nv →
    IsShortestPathFrom baseG.wt (spB nu nv) nu nv := by
  intro uv huv nu nv hu hv
  have huv' : uv = ("A", "B") := by
    have hc : combos2 ["A", "B"] = [("A", "B")] := rfl
    rw [hc] at huv
    simpa using huv
  subst huv'
  have hnu : nu = nA := by
    have h' : some nA = some nu := hu
    cases h'
    rfl
  have hnv : nv = nB := by
    have h' : some nB = some nv := hv
    cases h'
    rfl
  subst hnu
  subst hnv
  constructor
  · exact ⟨rfl, rfl, by rfl⟩
  · intro q lq hq hlq
    refine ⟨1 + 0, rfl, ?_⟩
    have hlen : 2 ≤ q.length := by
      cases q with
      | nil => simp [IsPathFrom] at hq
      | cons x rest =>
        cases rest with
        | nil =>
          obtain ⟨hh, hl, _⟩ := hq
          have hx1 : x = nA := by simpa using hh
          have hx2 : x = nB := by simpa using hl
          rw [hx1] at hx2
          exact absurd hx2 (by decide)
        | cons y rest2 => simp
    have h1 := pathLen_ge_one baseG.wt baseG_wt_ge_one q lq hlen hlq
    linarith

/-- Witness for C2's amended theorem at `baseG`, target names `["A", "B"]`,
start `"S"`. -/
theorem reduceGraph_stores_shortest_target_pairs_witness :
    (["A", "B"] : List String).Nodup ∧
    ∃ rg, reduceGraph baseG spB ["A", "B"] "S" = some rg ∧ rg.start = nS ∧
      ∀ uv ∈ combos2 ["A", "B"], ∀ nu nv, baseG.node_dict uv.1 = some nu →
        baseG.node_dict uv.2 = some nv →
        ∃ d, rg.wt nu nv = some d ∧ rg.wt nv nu = some d ∧
          rg.paths nu nv = some (spB nu nv) ∧
          rg.paths nv nu = some (spB nu nv).reverse ∧
          pathLen baseG.wt (spB nu nv) = some d ∧
          IsShortestPathFrom baseG.wt (spB nu nv) nu nv :=
  ⟨by decide, reduceGraph_stores_shortest_target_pairs baseG spB ["A", "B"] "S" nS rfl
    (by decide) baseG_inj (by decide) baseG_sp_shortest⟩

end Skyline
